import Mathlib

/-!
Verification development for the Chronos-ITCH limit order book and ITCH 5.0
decoder. The definitions below are a shallow embedding of the C++ sources:

* `src/include/book/types.hpp` (`Order`, `Side`),
* `src/include/book/price_level.hpp` (`PriceLevel`),
* `src/include/book/order_book.hpp` (`OrderBook`, matching engine, queries),
* `src/include/book/memory_pool.hpp` (the pool is modelled by its free count),
* `src/include/itch/compat.hpp` and `src/include/itch/messages.hpp`
  (byte-swap primitives, `Timestamp48`, `StockSymbol::equals`, message
  layouts).

Machine integers (`uint64_t` prices and ids, `uint32_t` quantities) are
modelled as `Nat`; the code never relies on wrap-around on these fields in
any state exercised by the theorems, and every subtraction in the source is
either explicitly floored (`reduce_qty`, `reduce_volume`) or guarded.
Pointer identity of pool slots is modelled by order ids together with the
position of the order in its level queue, and the `std::unordered_map`
identifier index is modelled as an association list.
-/

namespace Chronos

/-- Embeds `enum class Side : char { Buy = 'B', Sell = 'S' }` from
`types.hpp`. Only the two tags matter for the book logic. -/
inductive Side where
  | Buy : Side
  | Sell : Side
deriving DecidableEq, Repr

/-- Embeds `struct Order` from `types.hpp`: identifier, fixed-point price,
remaining quantity and side. The intrusive link fields are represented by
the order's position inside its level's queue list. -/
structure Order where
  id : Nat
  price : Nat
  qty : Nat
  side : Side
deriving DecidableEq, Repr

/-- Embeds `struct PriceLevel` from `price_level.hpp`: the price, the FIFO
queue of resting orders (head of the list is the oldest order) and the
cached aggregate volume. -/
structure PriceLevel where
  price : Nat
  orders : List Order
  total_volume : Nat
deriving DecidableEq, Repr

/-- Embeds `struct Execution` from `order_book.hpp`. -/
structure Execution where
  maker_id : Nat
  taker_id : Nat
  price : Nat
  qty : Nat
  maker_side : Side
deriving DecidableEq, Repr

/-- Embeds the `OrderBook` state: the bid ladder (sorted descending by
price in every reachable state), the ask ladder (sorted ascending), the
identifier index `order_map_` (modelled as an association list from id to
the resting order's price and side, which is all `cancel_order` reads from
the mapped pointer besides the queue position), and the memory pool
modelled by its free-slot count `free_count_`. -/
structure OrderBook where
  bids : List PriceLevel
  asks : List PriceLevel
  order_map : List (Nat × Nat × Side)
  free_count : Nat
deriving DecidableEq, Repr

/-- Embeds `PriceLevel::add_order`: append at the tail of the queue and add
the order's quantity to the cached volume. -/
def PriceLevel.add_order (l : PriceLevel) (o : Order) : PriceLevel :=
  ⟨l.price, l.orders ++ [o], l.total_volume + o.qty⟩

/-- Lookup in the identifier index: models `order_map_.find(id)`. -/
def containsId (m : List (Nat × Nat × Side)) (id : Nat) : Bool :=
  m.any (fun e => e.1 = id)

/-- Models `order_map_.find(id)` returning the mapped order's price and
side (the data `cancel_order` reads through the stored pointer). -/
def lookupId (m : List (Nat × Nat × Side)) (id : Nat) : Option (Nat × Side) :=
  (m.find? (fun e => e.1 = id)).map (fun e => e.2)

/-- Models `order_map_.erase(id)`: the key is unique in every reachable
state, so removing all bindings of `id` coincides with the C++ erase. -/
def eraseId (m : List (Nat × Nat × Side)) (id : Nat) : List (Nat × Nat × Side) :=
  m.filter (fun e => ¬ e.1 = id)

/-- Result of `OrderBook::match_at_level` on one price level: the remaining
queue, the updated cached volume, the taker's remaining quantity, the
emitted executions in callback order, and the ids of fully filled makers
that were erased from the index and released to the pool. -/
structure LevelMatch where
  orders : List Order
  total_volume : Nat
  remaining : Nat
  execs : List Execution
  freed : List Nat
deriving DecidableEq, Repr

/-- Embeds the loop body of `OrderBook::match_at_level` (order_book.hpp).
Each iteration takes the maker at the head of the queue, fills
`min(remaining, maker.qty)`, emits the execution at the level's price,
reduces the cached volume (`PriceLevel::reduce_volume`, floored at zero)
and the maker's quantity (`Order::reduce_qty`, floored at zero), and pops,
unindexes and releases the maker when it is fully filled. A maker that
survives can only do so with `remaining = 0`, upon which the loop stops. -/
def matchLoop : List Order → Nat → Nat → Nat → Nat → Side → LevelMatch
  | [], _, tv, _, remaining, _ => ⟨[], tv, remaining, [], []⟩
  | maker :: rest, lvlPrice, tv, takerId, remaining, makerSide =>
    if remaining = 0 then ⟨maker :: rest, tv, remaining, [], []⟩
    else
      let fill := min remaining maker.qty
      let e : Execution := ⟨maker.id, takerId, lvlPrice, fill, makerSide⟩
      let tv2 := if fill ≤ tv then tv - fill else 0
      let rem2 := remaining - fill
      if maker.qty ≤ fill then
        let r := matchLoop rest lvlPrice tv2 takerId rem2 makerSide
        ⟨r.orders, r.total_volume, r.remaining, e :: r.execs, maker.id :: r.freed⟩
      else
        ⟨⟨maker.id, maker.price, maker.qty - fill, maker.side⟩ :: rest,
          tv2, rem2, [e], []⟩

/-- Result of `match_buy` / `match_sell`: the surviving opposite ladder,
the taker's remaining quantity, all executions in callback order, and the
freed maker ids. -/
structure LadderMatch where
  levels : List PriceLevel
  remaining : Nat
  execs : List Execution
  freed : List Nat
deriving DecidableEq, Repr

/-- Embeds the ladder loop shared by `OrderBook::match_buy` and
`OrderBook::match_sell`. `noCross taker level` is the break test
(`price < level.price` for a buy, `price > level.price` for a sell).
While quantity remains and the front level crosses, the level is matched
via `matchLoop`; an emptied level is erased and the loop re-examines the
new front. A front level that survives matching implies the remaining
quantity is zero, so the loop stops, matching the C++ `while` exit. -/
def match_ladder (noCross : Nat → Nat → Bool) (makerSide : Side) :
    List PriceLevel → Nat → Nat → Nat → LadderMatch
  | [], _, _, remaining => ⟨[], remaining, [], []⟩
  | l :: rest, takerId, price, remaining =>
    if remaining = 0 then ⟨l :: rest, remaining, [], []⟩
    else if noCross price l.price then ⟨l :: rest, remaining, [], []⟩
    else
      let m := matchLoop l.orders l.price l.total_volume takerId remaining makerSide
      if m.orders.isEmpty then
        let r := match_ladder noCross makerSide rest takerId price m.remaining
        ⟨r.levels, r.remaining, m.execs ++ r.execs, m.freed ++ r.freed⟩
      else
        ⟨⟨l.price, m.orders, m.total_volume⟩ :: rest, m.remaining, m.execs, m.freed⟩

/-- Embeds `OrderBook::match_buy`: a buy taker consumes ask levels while
`price ≥ level.price`; resting makers are sells. -/
def match_buy (asks : List PriceLevel) (takerId price qty : Nat) : LadderMatch :=
  match_ladder (fun p lp => decide (p < lp)) Side.Sell asks takerId price qty

/-- Embeds `OrderBook::match_sell`: a sell taker consumes bid levels while
`price ≤ level.price`; resting makers are buys. -/
def match_sell (bids : List PriceLevel) (takerId price qty : Nat) : LadderMatch :=
  match_ladder (fun p lp => decide (lp < p)) Side.Buy bids takerId price qty

/-- Embeds `OrderBook::add_to_bids`: insert into the descending ladder at
the `lower_bound` position, appending to an existing level of equal price
or creating a fresh level. -/
def add_to_bids : List PriceLevel → Order → List PriceLevel
  | [], o => [⟨o.price, [o], o.qty⟩]
  | l :: rest, o =>
    if o.price < l.price then l :: add_to_bids rest o
    else if l.price = o.price then l.add_order o :: rest
    else ⟨o.price, [o], o.qty⟩ :: l :: rest

/-- Embeds `OrderBook::add_to_asks`: insert into the ascending ladder. -/
def add_to_asks : List PriceLevel → Order → List PriceLevel
  | [], o => [⟨o.price, [o], o.qty⟩]
  | l :: rest, o =>
    if l.price < o.price then l :: add_to_asks rest o
    else if l.price = o.price then l.add_order o :: rest
    else ⟨o.price, [o], o.qty⟩ :: l :: rest

/-- The matching phase of `OrderBook::add_order`: run the matching loop on
the opposite ladder and apply its side effects (erasing fully filled makers
from the index and returning their slots to the pool). Returns the ladder
match together with the book state as it stands right before the residual
allocation attempt. -/
def matchPhase (b : OrderBook) (id price qty : Nat) (side : Side) :
    LadderMatch × OrderBook :=
  match side with
  | Side.Buy =>
    let m := match_buy b.asks id price qty
    (m, ⟨b.bids, m.levels, m.freed.foldl eraseId b.order_map,
          b.free_count + m.freed.length⟩)
  | Side.Sell =>
    let m := match_sell b.bids id price qty
    (m, ⟨m.levels, b.asks, m.freed.foldl eraseId b.order_map,
          b.free_count + m.freed.length⟩)

/-- Embeds `OrderBook::add_order`. Returns the C++ boolean result, the
sequence of `on_execution` callback invocations in order, and the new book
state. Duplicate ids are rejected with no state change; a fully matched
taker rests nothing; otherwise a slot is taken from the pool (failing with
`false` when the pool is exhausted, keeping the matching phase's effects)
and the residual order is inserted into its own ladder and the index. -/
def add_order (b : OrderBook) (id price qty : Nat) (side : Side) :
    Bool × List Execution × OrderBook :=
  if containsId b.order_map id then (false, [], b)
  else
    let p := matchPhase b id price qty side
    let m := p.1
    let b1 := p.2
    if m.remaining = 0 then (true, m.execs, b1)
    else if b1.free_count = 0 then (false, m.execs, b1)
    else
      let o : Order := ⟨id, price, m.remaining, side⟩
      match side with
      | Side.Buy =>
        (true, m.execs,
          ⟨add_to_bids b1.bids o, b1.asks, (id, price, side) :: b1.order_map,
            b1.free_count - 1⟩)
      | Side.Sell =>
        (true, m.execs,
          ⟨b1.bids, add_to_asks b1.asks o, (id, price, side) :: b1.order_map,
            b1.free_count - 1⟩)

/-- One pass of `IntrusiveList::remove` driven by `cancel_order`: remove
the (unique) order with the given id from a level queue, returning the
removed order as witness. Pointer identity in the C++ corresponds to id
identity here because ids are unique in every reachable state. -/
def removeOrderById : List Order → Nat → Option Order × List Order
  | [], _ => (none, [])
  | o :: os, id =>
    if o.id = id then (some o, os)
    else
      let r := removeOrderById os id
      (r.1, o :: r.2)

/-- Embeds `PriceLevel::remove_order`: subtract the removed order's
remaining quantity from the cached volume (floored at zero) and unlink it
from the queue. -/
def PriceLevel.remove_order (l : PriceLevel) (id : Nat) : PriceLevel :=
  match (removeOrderById l.orders id).1 with
  | none => l
  | some o =>
    ⟨l.price, (removeOrderById l.orders id).2,
      if o.qty ≤ l.total_volume then l.total_volume - o.qty else 0⟩

/-- Embeds `OrderBook::remove_from_bids` / `remove_from_asks`: scan the
ladder for the level at the order's price, remove the order from it, and
erase the level when it becomes empty. -/
def remove_from_ladder : List PriceLevel → Nat → Nat → List PriceLevel
  | [], _, _ => []
  | l :: rest, price, id =>
    if l.price = price then
      let l2 := l.remove_order id
      if l2.orders.isEmpty then rest else l2 :: rest
    else l :: remove_from_ladder rest price id

/-- Embeds `OrderBook::cancel_order`: look the id up in the index; if
absent return `false`; otherwise erase the index entry, remove the order
from its side's ladder and return its slot to the pool. -/
def cancel_order (b : OrderBook) (id : Nat) : Bool × OrderBook :=
  match lookupId b.order_map id with
  | none => (false, b)
  | some (price, side) =>
    let m2 := eraseId b.order_map id
    match side with
    | Side.Buy =>
      (true, ⟨remove_from_ladder b.bids price id, b.asks, m2, b.free_count + 1⟩)
    | Side.Sell =>
      (true, ⟨b.bids, remove_from_ladder b.asks price id, m2, b.free_count + 1⟩)

/-- Embeds `OrderBook::best_bid`: `nullopt` when the bid ladder is empty or
its front level holds no orders. -/
def best_bid (b : OrderBook) : Option Nat :=
  match b.bids with
  | [] => none
  | l :: _ => if l.orders.isEmpty then none else some l.price

/-- Embeds `OrderBook::best_ask`. -/
def best_ask (b : OrderBook) : Option Nat :=
  match b.asks with
  | [] => none
  | l :: _ => if l.orders.isEmpty then none else some l.price

/-- Embeds `OrderBook::spread`: absent unless both best prices exist. In
every reachable state with both sides populated the ask exceeds the bid,
so the unsigned C++ subtraction agrees with truncated subtraction here. -/
def spread (b : OrderBook) : Option Nat :=
  match best_bid b, best_ask b with
  | some bb, some ba => some (ba - bb)
  | _, _ => none

/-- Embeds `OrderBook::best_bid_volume`: the C++ returns a plain
`uint64_t`, yielding `0` (not an absent value) for an empty ladder. -/
def best_bid_volume (b : OrderBook) : Nat :=
  match b.bids with
  | [] => 0
  | l :: _ => l.total_volume

/-- Embeds `OrderBook::best_ask_volume`. -/
def best_ask_volume (b : OrderBook) : Nat :=
  match b.asks with
  | [] => 0
  | l :: _ => l.total_volume

/-- The public mutating operations of the book. -/
inductive Op where
  | add (id price qty : Nat) (side : Side) : Op
  | cancel (id : Nat) : Op
deriving DecidableEq, Repr

/-- Apply one public operation to the book, dropping the returned values. -/
def applyOp (b : OrderBook) : Op → OrderBook
  | Op.add id price qty side => (add_order b id price qty side).2.2
  | Op.cancel id => (cancel_order b id).2

/-- A freshly constructed book backed by a pool of `cap` slots. -/
def mkBook (cap : Nat) : OrderBook := ⟨[], [], [], cap⟩

/-- The book obtained by running a sequence of operations from empty. -/
def runOps (cap : Nat) (ops : List Op) : OrderBook :=
  ops.foldl applyOp (mkBook cap)

/-- States reachable from an empty book by `add_order` / `cancel_order`. -/
def Reachable (b : OrderBook) : Prop :=
  ∃ cap ops, runOps cap ops = b

/-- Well-formedness of one price level holding `side` makers: non-empty
queue, cached volume equal to the summed remaining quantities, and every
queued order carrying the level's price, the ladder's side and a positive
remaining quantity. -/
def levelWF (side : Side) (l : PriceLevel) : Prop :=
  l.orders ≠ [] ∧
  l.total_volume = (l.orders.map Order.qty).sum ∧
  ∀ o ∈ l.orders, o.price = l.price ∧ o.side = side ∧ 0 < o.qty

/-- The order book invariant: bid prices strictly descending, ask prices
strictly ascending, every ladder entry well formed, and every bid price
strictly below every ask price. -/
def Inv (b : OrderBook) : Prop :=
  List.Pairwise (fun x y => y.price < x.price) b.bids ∧
  List.Pairwise (fun x y => x.price < y.price) b.asks ∧
  (∀ l ∈ b.bids, levelWF Side.Buy l) ∧
  (∀ l ∈ b.asks, levelWF Side.Sell l) ∧
  (∀ lb ∈ b.bids, ∀ la ∈ b.asks, lb.price < la.price)


theorem matchLoop_zero :
    ∀ (orders : List Order) (lvlPrice tv takerId : Nat) (s : Side),
      matchLoop orders lvlPrice tv takerId 0 s = ⟨orders, tv, 0, [], []⟩
  | [], _, _, _, _ => rfl
  | _ :: _, _, _, _, _ => by simp [matchLoop]

theorem matchLoop_orders_wf (lvlPrice takerId : Nat) (s : Side) :
    ∀ (orders : List Order) (tv remaining : Nat),
      (∀ o ∈ orders, o.price = lvlPrice ∧ o.side = s ∧ 0 < o.qty) →
      ∀ o ∈ (matchLoop orders lvlPrice tv takerId remaining s).orders,
        o.price = lvlPrice ∧ o.side = s ∧ 0 < o.qty := by
  intro orders
  induction orders with
  | nil => intro tv remaining _ o ho; simp [matchLoop] at ho
  | cons maker rest ih =>
    intro tv remaining h o ho
    simp only [matchLoop] at ho
    by_cases h0 : remaining = 0
    · rw [if_pos h0] at ho
      exact h o ho
    · rw [if_neg h0] at ho
      by_cases hq : maker.qty ≤ min remaining maker.qty
      · rw [if_pos hq] at ho
        exact ih _ _ (fun o' ho' => h o' (List.mem_cons_of_mem _ ho')) o ho
      · rw [if_neg hq] at ho
        rcases List.mem_cons.mp ho with rfl | hmem
        · rcases h maker (List.mem_cons_self _ _) with ⟨hp, hs, _⟩
          exact ⟨hp, hs, by simp only; omega⟩
        · exact h o (List.mem_cons_of_mem _ hmem)

theorem matchLoop_tv (lvlPrice takerId : Nat) (s : Side) :
    ∀ (orders : List Order) (tv remaining : Nat),
      tv = (orders.map Order.qty).sum →
      (matchLoop orders lvlPrice tv takerId remaining s).total_volume =
        (((matchLoop orders lvlPrice tv takerId remaining s).orders).map
          Order.qty).sum := by
  intro orders
  induction orders with
  | nil => intro tv remaining h; simp [matchLoop, h]
  | cons maker rest ih =>
    intro tv remaining h
    simp only [matchLoop]
    by_cases h0 : remaining = 0
    · rw [if_pos h0]
      simpa using h
    · rw [if_neg h0]
      simp only [List.map_cons, List.sum_cons] at h
      by_cases hq : maker.qty ≤ min remaining maker.qty
      · rw [if_pos hq]
        have hfill : min remaining maker.qty ≤ tv := by omega
        have htv2 :
            (if min remaining maker.qty ≤ tv then tv - min remaining maker.qty
              else 0) = (rest.map Order.qty).sum := by
          rw [if_pos hfill]; omega
        simp only [htv2]
        exact ih _ (remaining - min remaining maker.qty) rfl
      · rw [if_neg hq]
        simp only [List.map_cons, List.sum_cons]
        have hfill : min remaining maker.qty ≤ tv := by omega
        rw [if_pos hfill]
        omega

theorem matchLoop_rem0 (lvlPrice takerId : Nat) (s : Side) :
    ∀ (orders : List Order) (tv remaining : Nat),
      (matchLoop orders lvlPrice tv takerId remaining s).orders ≠ [] →
      (matchLoop orders lvlPrice tv takerId remaining s).remaining = 0 := by
  intro orders
  induction orders with
  | nil => intro tv remaining h; simp [matchLoop] at h
  | cons maker rest ih =>
    intro tv remaining h
    simp only [matchLoop] at h ⊢
    by_cases h0 : remaining = 0
    · rw [if_pos h0]
      exact h0
    · rw [if_neg h0] at h ⊢
      by_cases hq : maker.qty ≤ min remaining maker.qty
      · rw [if_pos hq] at h ⊢
        exact ih _ _ h
      · rw [if_neg hq] at h ⊢
        show remaining - min remaining maker.qty = 0
        omega

theorem matchLoop_execs (lvlPrice takerId : Nat) (s : Side) :
    ∀ (orders : List Order) (tv remaining : Nat),
      ∀ e ∈ (matchLoop orders lvlPrice tv takerId remaining s).execs,
        e.price = lvlPrice ∧ e.maker_side = s ∧ e.taker_id = takerId ∧
        ((∀ o ∈ orders, 0 < o.qty) → 0 < e.qty) ∧
        ∃ o ∈ orders, o.id = e.maker_id := by
  intro orders
  induction orders with
  | nil => intro tv remaining e he; simp [matchLoop] at he
  | cons maker rest ih =>
    intro tv remaining e he
    simp only [matchLoop] at he
    by_cases h0 : remaining = 0
    · rw [if_pos h0] at he
      simp at he
    · rw [if_neg h0] at he
      by_cases hq : maker.qty ≤ min remaining maker.qty
      · rw [if_pos hq] at he
        rcases List.mem_cons.mp he with rfl | hmem
        · refine ⟨rfl, rfl, rfl, ?_, maker, List.mem_cons_self _ _, rfl⟩
          intro hpos
          have := hpos maker (List.mem_cons_self _ _)
          simp only
          omega
        · rcases ih _ _ e hmem with ⟨hp, hs, ht, hpos, o, ho, hid⟩
          exact ⟨hp, hs, ht,
            fun hq2 => hpos (fun o' ho' => hq2 o' (List.mem_cons_of_mem _ ho')),
            o, List.mem_cons_of_mem _ ho, hid⟩
      · rw [if_neg hq] at he
        rcases List.mem_cons.mp he with rfl | hmem
        · refine ⟨rfl, rfl, rfl, ?_, maker, List.mem_cons_self _ _, rfl⟩
          intro hpos
          have := hpos maker (List.mem_cons_self _ _)
          simp only
          omega
        · simp at hmem


theorem matchLoop_fifo (lvlPrice takerId : Nat) (s : Side) :
    ∀ (orders : List Order) (tv remaining : Nat),
      ((matchLoop orders lvlPrice tv takerId remaining s).execs.map
        Execution.maker_id) <+: orders.map Order.id := by
  intro orders
  induction orders with
  | nil => intro tv remaining; exact List.nil_prefix
  | cons maker rest ih =>
    intro tv remaining
    simp only [matchLoop]
    by_cases h0 : remaining = 0
    · rw [if_pos h0]
      exact List.nil_prefix
    · rw [if_neg h0]
      by_cases hq : maker.qty ≤ min remaining maker.qty
      · rw [if_pos hq]
        obtain ⟨t, ht⟩ := ih
          (if min remaining maker.qty ≤ tv then tv - min remaining maker.qty else 0)
          (remaining - min remaining maker.qty)
        refine ⟨t, ?_⟩
        simp only [List.map_cons, List.cons_append, ht]
      · rw [if_neg hq]
        exact ⟨rest.map Order.id, by simp⟩

theorem ladder_wf (noCross : Nat → Nat → Bool) (s : Side) :
    ∀ (levels : List PriceLevel) (takerId price remaining : Nat),
      (∀ l ∈ levels, levelWF s l) →
      ∀ l ∈ (match_ladder noCross s levels takerId price remaining).levels,
        levelWF s l := by
  intro levels
  induction levels with
  | nil => intro takerId price remaining _ l hl; simp [match_ladder] at hl
  | cons l0 rest ih =>
    intro takerId price remaining h l hl
    simp only [match_ladder] at hl
    by_cases h0 : remaining = 0
    · rw [if_pos h0] at hl; exact h l hl
    · rw [if_neg h0] at hl
      by_cases hnc : noCross price l0.price = true
      · rw [if_pos hnc] at hl; exact h l hl
      · rw [if_neg hnc] at hl
        by_cases he :
            (matchLoop l0.orders l0.price l0.total_volume takerId remaining s).orders.isEmpty = true
        · rw [if_pos he] at hl
          exact ih _ _ _ (fun l' hl' => h l' (List.mem_cons_of_mem _ hl')) l hl
        · rw [if_neg he] at hl
          rcases List.mem_cons.mp hl with rfl | hmem
          · rcases h l0 (List.mem_cons_self _ _) with ⟨hne, htv, hord⟩
            refine ⟨?_, ?_, ?_⟩
            · intro hcon
              exact he (List.isEmpty_iff.mpr hcon)
            · exact matchLoop_tv l0.price takerId s l0.orders l0.total_volume remaining htv
            · intro o ho
              exact matchLoop_orders_wf l0.price takerId s l0.orders l0.total_volume
                remaining hord o ho
          · exact h l (List.mem_cons_of_mem _ hmem)

theorem ladder_prices (noCross : Nat → Nat → Bool) (s : Side) :
    ∀ (levels : List PriceLevel) (takerId price remaining : Nat),
      ∀ l2 ∈ (match_ladder noCross s levels takerId price remaining).levels,
        ∃ l ∈ levels, l2.price = l.price := by
  intro levels
  induction levels with
  | nil => intro takerId price remaining l2 hl; simp [match_ladder] at hl
  | cons l0 rest ih =>
    intro takerId price remaining l2 hl
    simp only [match_ladder] at hl
    by_cases h0 : remaining = 0
    · rw [if_pos h0] at hl; exact ⟨l2, hl, rfl⟩
    · rw [if_neg h0] at hl
      by_cases hnc : noCross price l0.price = true
      · rw [if_pos hnc] at hl; exact ⟨l2, hl, rfl⟩
      · rw [if_neg hnc] at hl
        by_cases he :
            (matchLoop l0.orders l0.price l0.total_volume takerId remaining s).orders.isEmpty = true
        · rw [if_pos he] at hl
          rcases ih _ _ _ l2 hl with ⟨l, hlmem, hp⟩
          exact ⟨l, List.mem_cons_of_mem _ hlmem, hp⟩
        · rw [if_neg he] at hl
          rcases List.mem_cons.mp hl with rfl | hmem
          · exact ⟨l0, List.mem_cons_self _ _, rfl⟩
          · exact ⟨l2, List.mem_cons_of_mem _ hmem, rfl⟩

theorem ladder_sorted (noCross : Nat → Nat → Bool) (s : Side) (R : Nat → Nat → Prop) :
    ∀ (levels : List PriceLevel) (takerId price remaining : Nat),
      List.Pairwise (fun x y => R x.price y.price) levels →
      List.Pairwise (fun x y => R x.price y.price)
        (match_ladder noCross s levels takerId price remaining).levels := by
  intro levels
  induction levels with
  | nil => intro takerId price remaining h; simp [match_ladder]
  | cons l0 rest ih =>
    intro takerId price remaining h
    simp only [match_ladder]
    by_cases h0 : remaining = 0
    · rw [if_pos h0]; exact h
    · rw [if_neg h0]
      by_cases hnc : noCross price l0.price = true
      · rw [if_pos hnc]; exact h
      · rw [if_neg hnc]
        rcases List.pairwise_cons.mp h with ⟨hrel, hrest⟩
        by_cases he :
            (matchLoop l0.orders l0.price l0.total_volume takerId remaining s).orders.isEmpty = true
        · rw [if_pos he]
          exact ih _ _ _ hrest
        · rw [if_neg he]
          exact List.pairwise_cons.mpr ⟨fun l' hl' => hrel l' hl', hrest⟩

theorem ladder_stop (noCross : Nat → Nat → Bool) (s : Side) :
    ∀ (levels : List PriceLevel) (takerId price remaining : Nat) (l2 : PriceLevel)
      (t : List PriceLevel),
      (match_ladder noCross s levels takerId price remaining).levels = l2 :: t →
      (match_ladder noCross s levels takerId price remaining).remaining ≠ 0 →
      noCross price l2.price = true := by
  intro levels
  induction levels with
  | nil => intro takerId price remaining l2 t hl _; simp [match_ladder] at hl
  | cons l0 rest ih =>
    intro takerId price remaining l2 t hl hr
    simp only [match_ladder] at hl hr
    by_cases h0 : remaining = 0
    · rw [if_pos h0] at hr; exact absurd h0 hr
    · rw [if_neg h0] at hl hr
      by_cases hnc : noCross price l0.price = true
      · rw [if_pos hnc] at hl
        have : l2 = l0 := (List.cons_eq_cons.mp hl).1.symm
        rw [this]; exact hnc
      · rw [if_neg hnc] at hl hr
        by_cases he :
            (matchLoop l0.orders l0.price l0.total_volume takerId remaining s).orders.isEmpty = true
        · rw [if_pos he] at hl hr
          exact ih _ _ _ l2 t hl hr
        · rw [if_neg he] at hl hr
          exfalso
          apply hr
          apply matchLoop_rem0
          intro hcon
          exact he (List.isEmpty_iff.mpr hcon)


theorem ladder_execs_price (noCross : Nat → Nat → Bool) (s : Side) :
    ∀ (levels : List PriceLevel) (takerId price remaining : Nat),
      ∀ e ∈ (match_ladder noCross s levels takerId price remaining).execs,
        ∃ l ∈ levels, e.price = l.price := by
  intro levels
  induction levels with
  | nil => intro takerId price remaining e he; simp [match_ladder] at he
  | cons l0 rest ih =>
    intro takerId price remaining e he
    simp only [match_ladder] at he
    by_cases h0 : remaining = 0
    · rw [if_pos h0] at he; simp at he
    · rw [if_neg h0] at he
      by_cases hnc : noCross price l0.price = true
      · rw [if_pos hnc] at he; simp at he
      · rw [if_neg hnc] at he
        by_cases hem :
            (matchLoop l0.orders l0.price l0.total_volume takerId remaining s).orders.isEmpty = true
        · rw [if_pos hem] at he
          rcases List.mem_append.mp he with hml | hmr
          · rcases matchLoop_execs l0.price takerId s l0.orders l0.total_volume
              remaining e hml with ⟨hp, _⟩
            exact ⟨l0, List.mem_cons_self _ _, hp⟩
          · rcases ih _ _ _ e hmr with ⟨l, hlm, hp⟩
            exact ⟨l, List.mem_cons_of_mem _ hlm, hp⟩
        · rw [if_neg hem] at he
          rcases matchLoop_execs l0.price takerId s l0.orders l0.total_volume
            remaining e he with ⟨hp, _⟩
          exact ⟨l0, List.mem_cons_self _ _, hp⟩

theorem ladder_execs (noCross : Nat → Nat → Bool) (s : Side) :
    ∀ (levels : List PriceLevel) (takerId price remaining : Nat),
      (∀ l ∈ levels, levelWF s l) →
      ∀ e ∈ (match_ladder noCross s levels takerId price remaining).execs,
        0 < e.qty ∧ e.taker_id = takerId ∧ e.maker_side = s ∧
        ∃ l ∈ levels, e.price = l.price ∧
          ∃ o ∈ l.orders, o.id = e.maker_id ∧ o.price = e.price := by
  intro levels
  induction levels with
  | nil => intro takerId price remaining _ e he; simp [match_ladder] at he
  | cons l0 rest ih =>
    intro takerId price remaining hwf e he
    simp only [match_ladder] at he
    by_cases h0 : remaining = 0
    · rw [if_pos h0] at he; simp at he
    · rw [if_neg h0] at he
      by_cases hnc : noCross price l0.price = true
      · rw [if_pos hnc] at he; simp at he
      · rw [if_neg hnc] at he
        rcases hwf l0 (List.mem_cons_self _ _) with ⟨_, _, hord⟩
        by_cases hem :
            (matchLoop l0.orders l0.price l0.total_volume takerId remaining s).orders.isEmpty = true
        · rw [if_pos hem] at he
          rcases List.mem_append.mp he with hml | hmr
          · rcases matchLoop_execs l0.price takerId s l0.orders l0.total_volume
              remaining e hml with ⟨hp, hs2, ht, hpos, o, ho, hid⟩
            refine ⟨hpos (fun o' ho' => (hord o' ho').2.2), ht, hs2,
              l0, List.mem_cons_self _ _, hp, o, ho, hid, ?_⟩
            rw [(hord o ho).1, hp]
          · rcases ih _ _ _ (fun l' hl' => hwf l' (List.mem_cons_of_mem _ hl')) e hmr with
              ⟨hq, ht, hs2, l, hlm, hp, o, ho, hid, hop⟩
            exact ⟨hq, ht, hs2, l, List.mem_cons_of_mem _ hlm, hp, o, ho, hid, hop⟩
        · rw [if_neg hem] at he
          rcases matchLoop_execs l0.price takerId s l0.orders l0.total_volume
            remaining e he with ⟨hp, hs2, ht, hpos, o, ho, hid⟩
          refine ⟨hpos (fun o' ho' => (hord o' ho').2.2), ht, hs2,
            l0, List.mem_cons_self _ _, hp, o, ho, hid, ?_⟩
          rw [(hord o ho).1, hp]

theorem ladder_execs_sorted (noCross : Nat → Nat → Bool) (s : Side)
    (R : Nat → Nat → Prop) :
    ∀ (levels : List PriceLevel) (takerId price remaining : Nat),
      List.Pairwise (fun x y => R x.price y.price) levels →
      List.Pairwise (fun a b => R a b ∨ a = b)
        ((match_ladder noCross s levels takerId price remaining).execs.map
          Execution.price) := by
  intro levels
  induction levels with
  | nil => intro takerId price remaining _; simp [match_ladder]
  | cons l0 rest ih =>
    intro takerId price remaining hpw
    rcases List.pairwise_cons.mp hpw with ⟨hrel, hrest⟩
    simp only [match_ladder]
    by_cases h0 : remaining = 0
    · rw [if_pos h0]; simp
    · rw [if_neg h0]
      by_cases hnc : noCross price l0.price = true
      · rw [if_pos hnc]; simp
      · rw [if_neg hnc]
        by_cases hem :
            (matchLoop l0.orders l0.price l0.total_volume takerId remaining s).orders.isEmpty = true
        · rw [if_pos hem]
          simp only [List.map_append]
          refine List.pairwise_append.mpr ⟨?_, ih _ _ _ hrest, ?_⟩
          · refine List.pairwise_of_forall_mem_list ?_
            intro a ha b hb
            rcases List.mem_map.mp ha with ⟨e1, he1, rfl⟩
            rcases List.mem_map.mp hb with ⟨e2, he2, rfl⟩
            right
            rw [(matchLoop_execs l0.price takerId s l0.orders l0.total_volume
              remaining e1 he1).1,
              (matchLoop_execs l0.price takerId s l0.orders l0.total_volume
              remaining e2 he2).1]
          · intro a ha b hb
            rcases List.mem_map.mp ha with ⟨e1, he1, rfl⟩
            rcases List.mem_map.mp hb with ⟨e2, he2, rfl⟩
            left
            rw [(matchLoop_execs l0.price takerId s l0.orders l0.total_volume
              remaining e1 he1).1]
            rcases ladder_execs_price noCross s rest _ _ _ e2 he2 with ⟨l, hlm, hp⟩
            rw [hp]
            exact hrel l hlm
        · rw [if_neg hem]
          refine List.pairwise_of_forall_mem_list ?_
          intro a ha b hb
          rcases List.mem_map.mp ha with ⟨e1, he1, rfl⟩
          rcases List.mem_map.mp hb with ⟨e2, he2, rfl⟩
          right
          rw [(matchLoop_execs l0.price takerId s l0.orders l0.total_volume
            remaining e1 he1).1,
            (matchLoop_execs l0.price takerId s l0.orders l0.total_volume
            remaining e2 he2).1]

theorem ladder_fifo (noCross : Nat → Nat → Bool) (s : Side) (R : Nat → Nat → Prop)
    (hR : ∀ a b, R a b → a ≠ b) :
    ∀ (levels : List PriceLevel) (takerId price remaining : Nat),
      List.Pairwise (fun x y => R x.price y.price) levels →
      ∀ l0 ∈ levels,
        (((match_ladder noCross s levels takerId price remaining).execs.filter
            (fun e => e.price = l0.price)).map Execution.maker_id) <+:
          l0.orders.map Order.id := by
  intro levels
  induction levels with
  | nil => intro takerId price remaining _ l0 hl0; simp at hl0
  | cons lh rest ih =>
    intro takerId price remaining hpw l0 hl0
    rcases List.pairwise_cons.mp hpw with ⟨hrel, hrest⟩
    simp only [match_ladder]
    by_cases h0 : remaining = 0
    · rw [if_pos h0]; exact List.nil_prefix
    · rw [if_neg h0]
      by_cases hnc : noCross price lh.price = true
      · rw [if_pos hnc]; exact List.nil_prefix
      · rw [if_neg hnc]
        by_cases hem :
            (matchLoop lh.orders lh.price lh.total_volume takerId remaining s).orders.isEmpty = true
        · rw [if_pos hem]
          rcases List.mem_cons.mp hl0 with rfl | hmem
          · have hfl :
                (matchLoop l0.orders l0.price l0.total_volume takerId remaining
                  s).execs.filter (fun e => e.price = l0.price) =
                (matchLoop l0.orders l0.price l0.total_volume takerId remaining s).execs := by
              refine List.filter_eq_self.mpr ?_
              intro e he
              simp only [decide_eq_true_eq]
              exact (matchLoop_execs l0.price takerId s l0.orders l0.total_volume
                remaining e he).1
            have hfr :
                (match_ladder noCross s rest takerId price
                  (matchLoop l0.orders l0.price l0.total_volume takerId remaining
                    s).remaining).execs.filter (fun e => e.price = l0.price) = [] := by
              refine List.filter_eq_nil_iff.mpr ?_
              intro e he
              simp only [decide_eq_true_eq]
              rcases ladder_execs_price noCross s rest _ _ _ e he with ⟨l, hlm, hp⟩
              rw [hp]
              exact fun hcon => hR l0.price l.price (hrel l hlm) hcon.symm
            rw [List.filter_append, hfl, hfr, List.append_nil]
            exact matchLoop_fifo l0.price takerId s l0.orders l0.total_volume remaining
          · have hfl :
                (matchLoop lh.orders lh.price lh.total_volume takerId remaining
                  s).execs.filter (fun e => e.price = l0.price) = [] := by
              refine List.filter_eq_nil_iff.mpr ?_
              intro e he
              simp only [decide_eq_true_eq]
              rw [(matchLoop_execs lh.price takerId s lh.orders lh.total_volume
                remaining e he).1]
              exact hR lh.price l0.price (hrel l0 hmem)
            rw [List.filter_append, hfl, List.nil_append]
            exact ih _ _ _ hrest l0 hmem
        · rw [if_neg hem]
          rcases List.mem_cons.mp hl0 with rfl | hmem
          · have hfl :
                (matchLoop l0.orders l0.price l0.total_volume takerId remaining
                  s).execs.filter (fun e => e.price = l0.price) =
                (matchLoop l0.orders l0.price l0.total_volume takerId remaining s).execs := by
              refine List.filter_eq_self.mpr ?_
              intro e he
              simp only [decide_eq_true_eq]
              exact (matchLoop_execs l0.price takerId s l0.orders l0.total_volume
                remaining e he).1
            rw [hfl]
            exact matchLoop_fifo l0.price takerId s l0.orders l0.total_volume remaining
          · have hfl :
                (matchLoop lh.orders lh.price lh.total_volume takerId remaining
                  s).execs.filter (fun e => e.price = l0.price) = [] := by
              refine List.filter_eq_nil_iff.mpr ?_
              intro e he
              simp only [decide_eq_true_eq]
              rw [(matchLoop_execs lh.price takerId s lh.orders lh.total_volume
                remaining e he).1]
              exact hR lh.price l0.price (hrel l0 hmem)
            rw [hfl]
            exact List.nil_prefix


theorem add_to_bids_prices (o : Order) :
    ∀ (bids : List PriceLevel), ∀ l2 ∈ add_to_bids bids o,
      l2.price = o.price ∨ ∃ l ∈ bids, l2.price = l.price := by
  intro bids
  induction bids with
  | nil =>
    intro l2 h
    simp only [add_to_bids, List.mem_singleton] at h
    subst h
    exact Or.inl rfl
  | cons l rest ih =>
    intro l2 h
    simp only [add_to_bids] at h
    by_cases h1 : o.price < l.price
    · rw [if_pos h1] at h
      rcases List.mem_cons.mp h with rfl | hm
      · exact Or.inr ⟨l2, List.mem_cons_self _ _, rfl⟩
      · rcases ih l2 hm with hl | ⟨l', hl', hp⟩
        · exact Or.inl hl
        · exact Or.inr ⟨l', List.mem_cons_of_mem _ hl', hp⟩
    · rw [if_neg h1] at h
      by_cases h2 : l.price = o.price
      · rw [if_pos h2] at h
        rcases List.mem_cons.mp h with rfl | hm
        · exact Or.inl h2
        · exact Or.inr ⟨l2, List.mem_cons_of_mem _ hm, rfl⟩
      · rw [if_neg h2] at h
        rcases List.mem_cons.mp h with rfl | hm
        · exact Or.inl rfl
        · exact Or.inr ⟨l2, hm, rfl⟩

theorem add_to_bids_sorted (o : Order) :
    ∀ (bids : List PriceLevel),
      List.Pairwise (fun x y => y.price < x.price) bids →
      List.Pairwise (fun x y => y.price < x.price) (add_to_bids bids o) := by
  intro bids
  induction bids with
  | nil => intro _; simp [add_to_bids]
  | cons l rest ih =>
    intro h
    rcases List.pairwise_cons.mp h with ⟨hrel, hrest⟩
    simp only [add_to_bids]
    by_cases h1 : o.price < l.price
    · rw [if_pos h1]
      refine List.pairwise_cons.mpr ⟨?_, ih hrest⟩
      intro l2 hl2
      rcases add_to_bids_prices o rest l2 hl2 with hp | ⟨l', hl', hp⟩
      · rw [hp]; exact h1
      · rw [hp]; exact hrel l' hl'
    · rw [if_neg h1]
      by_cases h2 : l.price = o.price
      · rw [if_pos h2]
        exact List.pairwise_cons.mpr ⟨fun l2 hl2 => hrel l2 hl2, hrest⟩
      · rw [if_neg h2]
        refine List.pairwise_cons.mpr ⟨?_, h⟩
        intro l2 hl2
        rcases List.mem_cons.mp hl2 with rfl | hm
        · show l2.price < o.price
          omega
        · have h3 := hrel l2 hm
          show l2.price < o.price
          omega

theorem add_to_bids_wf (o : Order) (hside : o.side = Side.Buy) (hq : 0 < o.qty) :
    ∀ (bids : List PriceLevel),
      (∀ l ∈ bids, levelWF Side.Buy l) →
      ∀ l2 ∈ add_to_bids bids o, levelWF Side.Buy l2 := by
  intro bids
  induction bids with
  | nil =>
    intro _ l2 h
    simp only [add_to_bids, List.mem_singleton] at h
    subst h
    refine ⟨by simp, by simp, ?_⟩
    intro o2 ho2
    simp only [List.mem_singleton] at ho2
    subst ho2
    exact ⟨rfl, hside, hq⟩
  | cons l rest ih =>
    intro h l2 hl2
    simp only [add_to_bids] at hl2
    by_cases h1 : o.price < l.price
    · rw [if_pos h1] at hl2
      rcases List.mem_cons.mp hl2 with rfl | hm
      · exact h l2 (List.mem_cons_self _ _)
      · exact ih (fun l' hl' => h l' (List.mem_cons_of_mem _ hl')) l2 hm
    · rw [if_neg h1] at hl2
      by_cases h2 : l.price = o.price
      · rw [if_pos h2] at hl2
        rcases List.mem_cons.mp hl2 with rfl | hm
        · rcases h l (List.mem_cons_self _ _) with ⟨hne, htv, hord⟩
          refine ⟨by simp [PriceLevel.add_order], ?_, ?_⟩
          · simp [PriceLevel.add_order, htv]
          · intro o2 ho2
            simp only [PriceLevel.add_order, List.mem_append,
              List.mem_singleton] at ho2
            rcases ho2 with hm2 | rfl
            · exact hord o2 hm2
            · exact ⟨h2.symm, hside, hq⟩
        · exact h l2 (List.mem_cons_of_mem _ hm)
      · rw [if_neg h2] at hl2
        rcases List.mem_cons.mp hl2 with rfl | hm
        · refine ⟨by simp, by simp, ?_⟩
          intro o2 ho2
          simp only [List.mem_singleton] at ho2
          subst ho2
          exact ⟨rfl, hside, hq⟩
        · exact h l2 hm

theorem add_to_asks_prices (o : Order) :
    ∀ (asks : List PriceLevel), ∀ l2 ∈ add_to_asks asks o,
      l2.price = o.price ∨ ∃ l ∈ asks, l2.price = l.price := by
  intro asks
  induction asks with
  | nil =>
    intro l2 h
    simp only [add_to_asks, List.mem_singleton] at h
    subst h
    exact Or.inl rfl
  | cons l rest ih =>
    intro l2 h
    simp only [add_to_asks] at h
    by_cases h1 : l.price < o.price
    · rw [if_pos h1] at h
      rcases List.mem_cons.mp h with rfl | hm
      · exact Or.inr ⟨l2, List.mem_cons_self _ _, rfl⟩
      · rcases ih l2 hm with hl | ⟨l', hl', hp⟩
        · exact Or.inl hl
        · exact Or.inr ⟨l', List.mem_cons_of_mem _ hl', hp⟩
    · rw [if_neg h1] at h
      by_cases h2 : l.price = o.price
      · rw [if_pos h2] at h
        rcases List.mem_cons.mp h with rfl | hm
        · exact Or.inl h2
        · exact Or.inr ⟨l2, List.mem_cons_of_mem _ hm, rfl⟩
      · rw [if_neg h2] at h
        rcases List.mem_cons.mp h with rfl | hm
        · exact Or.inl rfl
        · exact Or.inr ⟨l2, hm, rfl⟩

theorem add_to_asks_sorted (o : Order) :
    ∀ (asks : List PriceLevel),
      List.Pairwise (fun x y => x.price < y.price) asks →
      List.Pairwise (fun x y => x.price < y.price) (add_to_asks asks o) := by
  intro asks
  induction asks with
  | nil => intro _; simp [add_to_asks]
  | cons l rest ih =>
    intro h
    rcases List.pairwise_cons.mp h with ⟨hrel, hrest⟩
    simp only [add_to_asks]
    by_cases h1 : l.price < o.price
    · rw [if_pos h1]
      refine List.pairwise_cons.mpr ⟨?_, ih hrest⟩
      intro l2 hl2
      rcases add_to_asks_prices o rest l2 hl2 with hp | ⟨l', hl', hp⟩
      · rw [hp]; exact h1
      · rw [hp]; exact hrel l' hl'
    · rw [if_neg h1]
      by_cases h2 : l.price = o.price
      · rw [if_pos h2]
        exact List.pairwise_cons.mpr ⟨fun l2 hl2 => hrel l2 hl2, hrest⟩
      · rw [if_neg h2]
        refine List.pairwise_cons.mpr ⟨?_, h⟩
        intro l2 hl2
        rcases List.mem_cons.mp hl2 with rfl | hm
        · show o.price < l2.price
          omega
        · have h3 := hrel l2 hm
          show o.price < l2.price
          omega

theorem add_to_asks_wf (o : Order) (hside : o.side = Side.Sell) (hq : 0 < o.qty) :
    ∀ (asks : List PriceLevel),
      (∀ l ∈ asks, levelWF Side.Sell l) →
      ∀ l2 ∈ add_to_asks asks o, levelWF Side.Sell l2 := by
  intro asks
  induction asks with
  | nil =>
    intro _ l2 h
    simp only [add_to_asks, List.mem_singleton] at h
    subst h
    refine ⟨by simp, by simp, ?_⟩
    intro o2 ho2
    simp only [List.mem_singleton] at ho2
    subst ho2
    exact ⟨rfl, hside, hq⟩
  | cons l rest ih =>
    intro h l2 hl2
    simp only [add_to_asks] at hl2
    by_cases h1 : l.price < o.price
    · rw [if_pos h1] at hl2
      rcases List.mem_cons.mp hl2 with rfl | hm
      · exact h l2 (List.mem_cons_self _ _)
      · exact ih (fun l' hl' => h l' (List.mem_cons_of_mem _ hl')) l2 hm
    · rw [if_neg h1] at hl2
      by_cases h2 : l.price = o.price
      · rw [if_pos h2] at hl2
        rcases List.mem_cons.mp hl2 with rfl | hm
        · rcases h l (List.mem_cons_self _ _) with ⟨hne, htv, hord⟩
          refine ⟨by simp [PriceLevel.add_order], ?_, ?_⟩
          · simp [PriceLevel.add_order, htv]
          · intro o2 ho2
            simp only [PriceLevel.add_order, List.mem_append,
              List.mem_singleton] at ho2
            rcases ho2 with hm2 | rfl
            · exact hord o2 hm2
            · exact ⟨h2.symm, hside, hq⟩
        · exact h l2 (List.mem_cons_of_mem _ hm)
      · rw [if_neg h2] at hl2
        rcases List.mem_cons.mp hl2 with rfl | hm
        · refine ⟨by simp, by simp, ?_⟩
          intro o2 ho2
          simp only [List.mem_singleton] at ho2
          subst ho2
          exact ⟨rfl, hside, hq⟩
        · exact h l2 hm


theorem removeOrderById_spec :
    ∀ (os : List Order) (id : Nat),
      ((removeOrderById os id).1 = none ∧ (removeOrderById os id).2 = os) ∨
      (∃ o, (removeOrderById os id).1 = some o ∧ o ∈ os ∧
        ((removeOrderById os id).2.map Order.qty).sum + o.qty =
          (os.map Order.qty).sum ∧
        ∀ o2 ∈ (removeOrderById os id).2, o2 ∈ os) := by
  intro os
  induction os with
  | nil => intro id; exact Or.inl ⟨rfl, rfl⟩
  | cons o os ih =>
    intro id
    simp only [removeOrderById]
    by_cases h : o.id = id
    · rw [if_pos h]
      exact Or.inr ⟨o, rfl, List.mem_cons_self _ _, by simp; omega,
        fun o2 h2 => List.mem_cons_of_mem _ h2⟩
    · rw [if_neg h]
      rcases ih id with ⟨hn, hs⟩ | ⟨o', hsome, hmem, hsum, hsub⟩
      · refine Or.inl ⟨hn, ?_⟩
        show o :: (removeOrderById os id).2 = o :: os
        rw [hs]
      · refine Or.inr ⟨o', hsome, List.mem_cons_of_mem _ hmem, ?_, ?_⟩
        · show ((o :: (removeOrderById os id).2).map Order.qty).sum + o'.qty =
            ((o :: os).map Order.qty).sum
          simp only [List.map_cons, List.sum_cons]
          omega
        · intro o2 h2
          rcases List.mem_cons.mp h2 with rfl | hm
          · exact List.mem_cons_self _ _
          · exact List.mem_cons_of_mem _ (hsub o2 hm)

theorem remove_order_price (l : PriceLevel) (id : Nat) :
    (l.remove_order id).price = l.price := by
  unfold PriceLevel.remove_order
  rcases removeOrderById_spec l.orders id with ⟨hn, _⟩ | ⟨o, hsome, _⟩
  · rw [hn]
  · rw [hsome]

theorem remove_order_wf (l : PriceLevel) (id : Nat) (s : Side)
    (h : levelWF s l) (hne : (l.remove_order id).orders ≠ []) :
    levelWF s (l.remove_order id) := by
  rcases h with ⟨hne0, htv, hord⟩
  unfold PriceLevel.remove_order at hne ⊢
  rcases removeOrderById_spec l.orders id with ⟨hn, _⟩ | ⟨o, hsome, hmem, hsum, hsub⟩
  · rw [hn] at hne ⊢
    exact ⟨hne0, htv, hord⟩
  · rw [hsome] at hne ⊢
    refine ⟨hne, ?_, ?_⟩
    · show (if o.qty ≤ l.total_volume then l.total_volume - o.qty else 0) =
        (((removeOrderById l.orders id).2).map Order.qty).sum
      have hle : o.qty ≤ l.total_volume := by omega
      rw [if_pos hle]
      omega
    · intro o2 ho2
      exact hord o2 (hsub o2 ho2)

theorem remove_ladder_prices (price id : Nat) :
    ∀ (levels : List PriceLevel),
      ∀ l2 ∈ remove_from_ladder levels price id,
        ∃ l ∈ levels, l2.price = l.price := by
  intro levels
  induction levels with
  | nil => intro l2 h; simp [remove_from_ladder] at h
  | cons l rest ih =>
    intro l2 h
    simp only [remove_from_ladder] at h
    by_cases h1 : l.price = price
    · rw [if_pos h1] at h
      by_cases h2 : (l.remove_order id).orders.isEmpty = true
      · rw [if_pos h2] at h
        exact ⟨l2, List.mem_cons_of_mem _ h, rfl⟩
      · rw [if_neg h2] at h
        rcases List.mem_cons.mp h with rfl | hm
        · exact ⟨l, List.mem_cons_self _ _, remove_order_price l id⟩
        · exact ⟨l2, List.mem_cons_of_mem _ hm, rfl⟩
    · rw [if_neg h1] at h
      rcases List.mem_cons.mp h with rfl | hm
      · exact ⟨l2, List.mem_cons_self _ _, rfl⟩
      · rcases ih l2 hm with ⟨l', hl', hp⟩
        exact ⟨l', List.mem_cons_of_mem _ hl', hp⟩

theorem remove_ladder_wf (price id : Nat) (s : Side) :
    ∀ (levels : List PriceLevel),
      (∀ l ∈ levels, levelWF s l) →
      ∀ l2 ∈ remove_from_ladder levels price id, levelWF s l2 := by
  intro levels
  induction levels with
  | nil => intro _ l2 h; simp [remove_from_ladder] at h
  | cons l rest ih =>
    intro h l2 hl2
    simp only [remove_from_ladder] at hl2
    by_cases h1 : l.price = price
    · rw [if_pos h1] at hl2
      by_cases h2 : (l.remove_order id).orders.isEmpty = true
      · rw [if_pos h2] at hl2
        exact h l2 (List.mem_cons_of_mem _ hl2)
      · rw [if_neg h2] at hl2
        rcases List.mem_cons.mp hl2 with rfl | hm
        · refine remove_order_wf l id s (h l (List.mem_cons_self _ _)) ?_
          intro hcon
          exact h2 (List.isEmpty_iff.mpr hcon)
        · exact h l2 (List.mem_cons_of_mem _ hm)
    · rw [if_neg h1] at hl2
      rcases List.mem_cons.mp hl2 with rfl | hm
      · exact h l2 (List.mem_cons_self _ _)
      · exact ih (fun l' hl' => h l' (List.mem_cons_of_mem _ hl')) l2 hm

theorem remove_ladder_sorted (price id : Nat) (R : Nat → Nat → Prop) :
    ∀ (levels : List PriceLevel),
      List.Pairwise (fun x y => R x.price y.price) levels →
      List.Pairwise (fun x y => R x.price y.price)
        (remove_from_ladder levels price id) := by
  intro levels
  induction levels with
  | nil => intro _; simp [remove_from_ladder]
  | cons l rest ih =>
    intro h
    rcases List.pairwise_cons.mp h with ⟨hrel, hrest⟩
    simp only [remove_from_ladder]
    by_cases h1 : l.price = price
    · rw [if_pos h1]
      by_cases h2 : (l.remove_order id).orders.isEmpty = true
      · rw [if_pos h2]
        exact hrest
      · rw [if_neg h2]
        refine List.pairwise_cons.mpr ⟨?_, hrest⟩
        intro l2 hl2
        rw [show (l.remove_order id).price = l.price from remove_order_price l id]
        exact hrel l2 hl2
    · rw [if_neg h1]
      refine List.pairwise_cons.mpr ⟨?_, ih hrest⟩
      intro l2 hl2
      rcases remove_ladder_prices price id rest l2 hl2 with ⟨l', hl', hp⟩
      rw [hp]
      exact hrel l' hl'


theorem add_order_inv (b : OrderBook) (id price qty : Nat) (side : Side)
    (h : Inv b) : Inv (add_order b id price qty side).2.2 := by
  rcases h with ⟨hbs, has, hbw, haw, hx⟩
  unfold add_order
  by_cases hdup : containsId b.order_map id = true
  · rw [if_pos hdup]
    exact ⟨hbs, has, hbw, haw, hx⟩
  · rw [if_neg hdup]
    cases side with
    | Buy =>
      simp only [matchPhase]
      set m := match_buy b.asks id price qty with hm
      have hlv_sorted : List.Pairwise (fun x y => x.price < y.price) m.levels := by
        rw [hm]
        exact ladder_sorted (fun p lp => decide (p < lp)) Side.Sell (· < ·)
          b.asks id price qty has
      have hlv_wf : ∀ l ∈ m.levels, levelWF Side.Sell l := by
        rw [hm]
        exact ladder_wf (fun p lp => decide (p < lp)) Side.Sell
          b.asks id price qty haw
      have hlv_pr : ∀ l2 ∈ m.levels, ∃ l ∈ b.asks, l2.price = l.price := by
        rw [hm]
        exact ladder_prices (fun p lp => decide (p < lp)) Side.Sell
          b.asks id price qty
      have hx' : ∀ lb ∈ b.bids, ∀ la ∈ m.levels, lb.price < la.price := by
        intro lb hlb la hla
        rcases hlv_pr la hla with ⟨l, hl, hp⟩
        rw [hp]; exact hx lb hlb l hl
      by_cases hr0 : m.remaining = 0
      · rw [if_pos hr0]
        exact ⟨hbs, hlv_sorted, hbw, hlv_wf, hx'⟩
      · rw [if_neg hr0]
        by_cases hf0 : b.free_count + m.freed.length = 0
        · rw [if_pos hf0]
          exact ⟨hbs, hlv_sorted, hbw, hlv_wf, hx'⟩
        · rw [if_neg hf0]
          refine ⟨add_to_bids_sorted _ _ hbs, hlv_sorted,
            add_to_bids_wf ⟨id, price, m.remaining, Side.Buy⟩ rfl
              (show 0 < m.remaining by omega) b.bids hbw, hlv_wf, ?_⟩
          intro lb hlb la hla
          rcases add_to_bids_prices _ _ lb hlb with hp | ⟨l', hl', hp⟩
          · rw [hp]
            show price < la.price
            cases hml : m.levels with
            | nil => rw [hml] at hla; simp at hla
            | cons la0 t =>
              have hstop := ladder_stop (fun p lp => decide (p < lp)) Side.Sell
                b.asks id price qty la0 t hml hr0
              have hlt : price < la0.price := of_decide_eq_true hstop
              rw [hml] at hla
              rcases List.mem_cons.mp hla with rfl | hmem
              · exact hlt
              · rw [hml] at hlv_sorted
                rcases List.pairwise_cons.mp hlv_sorted with ⟨hrel, _⟩
                have := hrel la hmem
                omega
          · rw [hp]; exact hx' l' hl' la hla
    | Sell =>
      simp only [matchPhase]
      set m := match_sell b.bids id price qty with hm
      have hlv_sorted : List.Pairwise (fun x y => y.price < x.price) m.levels := by
        rw [hm]
        exact ladder_sorted (fun p lp => decide (lp < p)) Side.Buy
          (fun a c => c < a) b.bids id price qty hbs
      have hlv_wf : ∀ l ∈ m.levels, levelWF Side.Buy l := by
        rw [hm]
        exact ladder_wf (fun p lp => decide (lp < p)) Side.Buy
          b.bids id price qty hbw
      have hlv_pr : ∀ l2 ∈ m.levels, ∃ l ∈ b.bids, l2.price = l.price := by
        rw [hm]
        exact ladder_prices (fun p lp => decide (lp < p)) Side.Buy
          b.bids id price qty
      have hx' : ∀ lb ∈ m.levels, ∀ la ∈ b.asks, lb.price < la.price := by
        intro lb hlb la hla
        rcases hlv_pr lb hlb with ⟨l, hl, hp⟩
        rw [hp]; exact hx l hl la hla
      by_cases hr0 : m.remaining = 0
      · rw [if_pos hr0]
        exact ⟨hlv_sorted, has, hlv_wf, haw, hx'⟩
      · rw [if_neg hr0]
        by_cases hf0 : b.free_count + m.freed.length = 0
        · rw [if_pos hf0]
          exact ⟨hlv_sorted, has, hlv_wf, haw, hx'⟩
        · rw [if_neg hf0]
          refine ⟨hlv_sorted, add_to_asks_sorted _ _ has, hlv_wf,
            add_to_asks_wf ⟨id, price, m.remaining, Side.Sell⟩ rfl
              (show 0 < m.remaining by omega) b.asks haw, ?_⟩
          intro lb hlb la hla
          rcases add_to_asks_prices _ _ la hla with hp | ⟨l', hl', hp⟩
          · rw [hp]
            show lb.price < price
            cases hml : m.levels with
            | nil => rw [hml] at hlb; simp at hlb
            | cons lb0 t =>
              have hstop := ladder_stop (fun p lp => decide (lp < p)) Side.Buy
                b.bids id price qty lb0 t hml hr0
              have hlt : lb0.price < price := of_decide_eq_true hstop
              rw [hml] at hlb
              rcases List.mem_cons.mp hlb with rfl | hmem
              · exact hlt
              · rw [hml] at hlv_sorted
                rcases List.pairwise_cons.mp hlv_sorted with ⟨hrel, _⟩
                have := hrel lb hmem
                omega
          · rw [hp]; exact hx' lb hlb l' hl'

theorem cancel_order_inv (b : OrderBook) (id : Nat) (h : Inv b) :
    Inv (cancel_order b id).2 := by
  rcases h with ⟨hbs, has, hbw, haw, hx⟩
  unfold cancel_order
  cases lookupId b.order_map id with
  | none => exact ⟨hbs, has, hbw, haw, hx⟩
  | some ps =>
    obtain ⟨price, side⟩ := ps
    cases side with
    | Buy =>
      show Inv ⟨remove_from_ladder b.bids price id, b.asks,
        eraseId b.order_map id, b.free_count + 1⟩
      refine ⟨remove_ladder_sorted price id (fun a c => c < a) b.bids hbs, has,
        remove_ladder_wf price id Side.Buy b.bids hbw, haw, ?_⟩
      intro lb hlb la hla
      rcases remove_ladder_prices price id b.bids lb hlb with ⟨l', hl', hp⟩
      rw [hp]
      exact hx l' hl' la hla
    | Sell =>
      show Inv ⟨b.bids, remove_from_ladder b.asks price id,
        eraseId b.order_map id, b.free_count + 1⟩
      refine ⟨hbs, remove_ladder_sorted price id (fun a c => a < c) b.asks has,
        hbw, remove_ladder_wf price id Side.Sell b.asks haw, ?_⟩
      intro lb hlb la hla
      rcases remove_ladder_prices price id b.asks la hla with ⟨l', hl', hp⟩
      rw [hp]
      exact hx lb hlb l' hl'

theorem foldl_inv : ∀ (ops : List Op) (b : OrderBook), Inv b →
    Inv (ops.foldl applyOp b) := by
  intro ops
  induction ops with
  | nil => intro b h; exact h
  | cons op rest ih =>
    intro b h
    refine ih (applyOp b op) ?_
    cases op with
    | add id price qty side => exact add_order_inv b id price qty side h
    | cancel id => exact cancel_order_inv b id h

theorem reachable_inv (b : OrderBook) (h : Reachable b) : Inv b := by
  rcases h with ⟨cap, ops, rfl⟩
  refine foldl_inv ops (mkBook cap) ?_
  refine ⟨List.Pairwise.nil, List.Pairwise.nil, ?_, ?_, ?_⟩ <;>
    intro l hl <;> simp [mkBook] at hl


theorem ladder_zero (noCross : Nat → Nat → Bool) (s : Side) :
    ∀ (levels : List PriceLevel) (takerId price : Nat),
      match_ladder noCross s levels takerId price 0 = ⟨levels, 0, [], []⟩
  | [], _, _ => rfl
  | _ :: _, _, _ => by simp [match_ladder]

theorem add_order_execs (b : OrderBook) (id price qty : Nat) (side : Side) :
    (add_order b id price qty side).2.1 =
      if containsId b.order_map id then []
      else (matchPhase b id price qty side).1.execs := by
  simp only [add_order]
  by_cases hdup : containsId b.order_map id = true
  · rw [if_pos hdup, if_pos hdup]
  · rw [if_neg hdup, if_neg hdup]
    by_cases hr : (matchPhase b id price qty side).1.remaining = 0
    · rw [if_pos hr]
    · rw [if_neg hr]
      by_cases hf : (matchPhase b id price qty side).2.free_count = 0
      · rw [if_pos hf]
      · rw [if_neg hf]
        cases side <;> rfl

/-- The ladder `add_order` matches against: asks for a buy taker, bids for
a sell taker. -/
def opposite_levels (b : OrderBook) : Side → List PriceLevel
  | Side.Buy => b.asks
  | Side.Sell => b.bids

theorem containsId_erase (mp : List (Nat × Nat × Side)) (id f : Nat)
    (h : containsId mp id = false) : containsId (eraseId mp f) id = false := by
  simp only [containsId, eraseId, List.any_eq_false] at h ⊢
  intro e he
  exact h e (List.mem_of_mem_filter he)

theorem containsId_foldl_erase :
    ∀ (freed : List Nat) (mp : List (Nat × Nat × Side)) (id : Nat),
      containsId mp id = false →
      containsId (freed.foldl eraseId mp) id = false := by
  intro freed
  induction freed with
  | nil => intro mp id h; exact h
  | cons f rest ih =>
    intro mp id h
    exact ih (eraseId mp f) id (containsId_erase mp id f h)

/-- C10: adding a fresh order with quantity zero succeeds and is a no-op:
no execution is emitted, nothing rests, nothing is indexed, and the pool is
untouched. -/
theorem C10_zero_qty_noop (b : OrderBook) (id price : Nat) (side : Side)
    (hfresh : containsId b.order_map id = false) :
    add_order b id price 0 side = (true, [], b) := by
  simp only [add_order]
  rw [if_neg (by simp [hfresh])]
  cases side with
  | Buy =>
    simp only [matchPhase]
    rw [show match_buy b.asks id price 0 = ⟨b.asks, 0, [], []⟩ from
      ladder_zero _ _ b.asks id price]
    rfl
  | Sell =>
    simp only [matchPhase]
    rw [show match_sell b.bids id price 0 = ⟨b.bids, 0, [], []⟩ from
      ladder_zero _ _ b.bids id price]
    rfl

theorem C10_witness :
    containsId (runOps 5 [Op.add 1 100 10 Side.Buy]).order_map 2 = false ∧
    add_order (runOps 5 [Op.add 1 100 10 Side.Buy]) 2 7 0 Side.Sell =
      (true, [], runOps 5 [Op.add 1 100 10 Side.Buy]) :=
  ⟨by decide, C10_zero_qty_noop (runOps 5 [Op.add 1 100 10 Side.Buy]) 2 7
    Side.Sell (by decide)⟩

/-- C3: when a fresh order is not fully matched and the pool has no free
slot at the allocation attempt, `add_order` returns `false`, hands every
matching-phase fill to the callback and keeps those fills applied (the
returned book is exactly the post-matching book), and drops the residual:
it is neither rested in a ladder nor registered in the index. -/
theorem C3_pool_exhaustion (b : OrderBook) (id price qty : Nat) (side : Side)
    (hfresh : containsId b.order_map id = false)
    (hrem : (matchPhase b id price qty side).1.remaining ≠ 0)
    (hpool : (matchPhase b id price qty side).2.free_count = 0) :
    add_order b id price qty side =
      (false, (matchPhase b id price qty side).1.execs,
        (matchPhase b id price qty side).2) ∧
    containsId (matchPhase b id price qty side).2.order_map id = false := by
  constructor
  · simp only [add_order]
    rw [if_neg (by simp [hfresh]), if_neg hrem, if_pos hpool]
  · cases side with
    | Buy =>
      show containsId
        ((match_buy b.asks id price qty).freed.foldl eraseId b.order_map) id = false
      exact containsId_foldl_erase _ b.order_map id hfresh
    | Sell =>
      show containsId
        ((match_sell b.bids id price qty).freed.foldl eraseId b.order_map) id = false
      exact containsId_foldl_erase _ b.order_map id hfresh

theorem C3_witness :
    containsId (mkBook 0).order_map 1 = false ∧
    (matchPhase (mkBook 0) 1 100 5 Side.Buy).1.remaining ≠ 0 ∧
    (matchPhase (mkBook 0) 1 100 5 Side.Buy).2.free_count = 0 ∧
    add_order (mkBook 0) 1 100 5 Side.Buy =
      (false, (matchPhase (mkBook 0) 1 100 5 Side.Buy).1.execs,
        (matchPhase (mkBook 0) 1 100 5 Side.Buy).2) ∧
    containsId (matchPhase (mkBook 0) 1 100 5 Side.Buy).2.order_map 1 = false := by
  refine ⟨by decide, by decide, by decide, ?_⟩
  exact C3_pool_exhaustion (mkBook 0) 1 100 5 Side.Buy (by decide) (by decide)
    (by decide)

/-- C4: in every reachable book state with both sides present, the best ask
price strictly exceeds the best bid price. -/
theorem C4_spread_strict (b : OrderBook) (hb : Reachable b) (bb ba : Nat)
    (hbb : best_bid b = some bb) (hba : best_ask b = some ba) : bb < ba := by
  rcases reachable_inv b hb with ⟨_, _, _, _, hx⟩
  rcases hBB : b.bids with _ | ⟨lb, tb⟩
  · rw [best_bid, hBB] at hbb
    simp at hbb
  · rcases hAA : b.asks with _ | ⟨la, ta⟩
    · rw [best_ask, hAA] at hba
      simp at hba
    · rw [best_bid, hBB] at hbb
      rw [best_ask, hAA] at hba
      by_cases hbe : lb.orders.isEmpty = true
      · simp [hbe] at hbb
      · by_cases hae : la.orders.isEmpty = true
        · simp [hae] at hba
        · simp only [if_neg hbe, if_neg hae, Option.some.injEq] at hbb hba
          have := hx lb (by rw [hBB]; exact List.mem_cons_self _ _)
            la (by rw [hAA]; exact List.mem_cons_self _ _)
          omega

theorem C4_witness :
    best_bid (runOps 6 [Op.add 1 100 10 Side.Buy, Op.add 2 200 5 Side.Sell]) =
      some 100 ∧
    best_ask (runOps 6 [Op.add 1 100 10 Side.Buy, Op.add 2 200 5 Side.Sell]) =
      some 200 ∧
    (100 : Nat) < 200 :=
  ⟨by decide, by decide,
    C4_spread_strict _ ⟨6, [Op.add 1 100 10 Side.Buy, Op.add 2 200 5 Side.Sell],
      rfl⟩ 100 200 (by decide) (by decide)⟩

/-- C5: in every reachable book state, bid prices strictly descend, ask
prices strictly ascend, and no ladder entry is an empty level. -/
theorem C5_ladder_monotone (b : OrderBook) (hb : Reachable b) :
    List.Pairwise (fun x y => y.price < x.price) b.bids ∧
    List.Pairwise (fun x y => x.price < y.price) b.asks ∧
    (∀ l ∈ b.bids, l.orders ≠ []) ∧ (∀ l ∈ b.asks, l.orders ≠ []) := by
  rcases reachable_inv b hb with ⟨hbs, has, hbw, haw, _⟩
  exact ⟨hbs, has, fun l hl => (hbw l hl).1, fun l hl => (haw l hl).1⟩

theorem C5_witness :
    List.Pairwise (fun x y => y.price < x.price)
      (runOps 9 [Op.add 1 100 10 Side.Buy, Op.add 2 90 5 Side.Buy,
        Op.add 3 200 7 Side.Sell, Op.add 4 210 3 Side.Sell,
        Op.cancel 2, Op.add 5 95 4 Side.Buy]).bids ∧
    List.Pairwise (fun x y => x.price < y.price)
      (runOps 9 [Op.add 1 100 10 Side.Buy, Op.add 2 90 5 Side.Buy,
        Op.add 3 200 7 Side.Sell, Op.add 4 210 3 Side.Sell,
        Op.cancel 2, Op.add 5 95 4 Side.Buy]).asks ∧
    (∀ l ∈ (runOps 9 [Op.add 1 100 10 Side.Buy, Op.add 2 90 5 Side.Buy,
        Op.add 3 200 7 Side.Sell, Op.add 4 210 3 Side.Sell,
        Op.cancel 2, Op.add 5 95 4 Side.Buy]).bids, l.orders ≠ []) ∧
    (∀ l ∈ (runOps 9 [Op.add 1 100 10 Side.Buy, Op.add 2 90 5 Side.Buy,
        Op.add 3 200 7 Side.Sell, Op.add 4 210 3 Side.Sell,
        Op.cancel 2, Op.add 5 95 4 Side.Buy]).asks, l.orders ≠ []) :=
  C5_ladder_monotone _ ⟨9, [Op.add 1 100 10 Side.Buy, Op.add 2 90 5 Side.Buy,
    Op.add 3 200 7 Side.Sell, Op.add 4 210 3 Side.Sell,
    Op.cancel 2, Op.add 5 95 4 Side.Buy], rfl⟩

/-- C6: in every reachable book state, each price level's cached volume
equals the sum of the remaining quantities of its queued orders. -/
theorem C6_cached_volume (b : OrderBook) (hb : Reachable b) :
    (∀ l ∈ b.bids, l.total_volume = (l.orders.map Order.qty).sum) ∧
    (∀ l ∈ b.asks, l.total_volume = (l.orders.map Order.qty).sum) := by
  rcases reachable_inv b hb with ⟨_, _, hbw, haw, _⟩
  exact ⟨fun l hl => (hbw l hl).2.1, fun l hl => (haw l hl).2.1⟩

theorem C6_witness :
    (∀ l ∈ (runOps 9 [Op.add 1 100 10 Side.Buy, Op.add 2 100 5 Side.Buy,
        Op.add 3 90 7 Side.Sell]).bids,
      l.total_volume = (l.orders.map Order.qty).sum) ∧
    (∀ l ∈ (runOps 9 [Op.add 1 100 10 Side.Buy, Op.add 2 100 5 Side.Buy,
        Op.add 3 90 7 Side.Sell]).asks,
      l.total_volume = (l.orders.map Order.qty).sum) :=
  C6_cached_volume _ ⟨9, [Op.add 1 100 10 Side.Buy, Op.add 2 100 5 Side.Buy,
    Op.add 3 90 7 Side.Sell], rfl⟩


/-- C1: every execution emitted by a call to `add_order` on a reachable
book carries the price of a maker that was resting in the opposite ladder
when the call was made — never the taker's limit price. -/
theorem C1_execution_price (b : OrderBook) (hb : Reachable b)
    (id price qty : Nat) (side : Side) (e : Execution)
    (he : e ∈ (add_order b id price qty side).2.1) :
    ∃ l ∈ opposite_levels b side, ∃ o ∈ l.orders,
      o.id = e.maker_id ∧ e.price = o.price := by
  rcases reachable_inv b hb with ⟨_, _, hbw, haw, _⟩
  rw [add_order_execs] at he
  by_cases hdup : containsId b.order_map id = true
  · rw [if_pos hdup] at he; simp at he
  · rw [if_neg hdup] at he
    cases side with
    | Buy =>
      have he2 : e ∈ (match_buy b.asks id price qty).execs := he
      rcases ladder_execs (fun p lp => decide (p < lp)) Side.Sell b.asks id price
        qty haw e he2 with ⟨_, _, _, l, hl, _, o, ho, hid, hop⟩
      exact ⟨l, hl, o, ho, hid, hop.symm⟩
    | Sell =>
      have he2 : e ∈ (match_sell b.bids id price qty).execs := he
      rcases ladder_execs (fun p lp => decide (lp < p)) Side.Buy b.bids id price
        qty hbw e he2 with ⟨_, _, _, l, hl, _, o, ho, hid, hop⟩
      exact ⟨l, hl, o, ho, hid, hop.symm⟩

theorem C1_witness :
    (⟨1, 2, 100, 4, Side.Sell⟩ : Execution) ∈
      (add_order (runOps 5 [Op.add 1 100 10 Side.Sell]) 2 100 4 Side.Buy).2.1 ∧
    ∃ l ∈ opposite_levels (runOps 5 [Op.add 1 100 10 Side.Sell]) Side.Buy,
      ∃ o ∈ l.orders, o.id = (1 : Nat) ∧ (100 : Nat) = o.price :=
  ⟨by decide,
    C1_execution_price (runOps 5 [Op.add 1 100 10 Side.Sell])
      ⟨5, [Op.add 1 100 10 Side.Sell], rfl⟩ 2 100 4 Side.Buy
      ⟨1, 2, 100, 4, Side.Sell⟩ (by decide)⟩

/-- The single price level holding the given queue, or no level at all when
the queue is empty; describes the ask ladder built by resting same-price
sells. -/
def askLevel (p : Nat) (os : List Order) : List PriceLevel :=
  if os.isEmpty then [] else [⟨p, os, (os.map Order.qty).sum⟩]

theorem add_to_asks_askLevel (p : Nat) (os : List Order) (o : Order)
    (ho : o.price = p) :
    add_to_asks (askLevel p os) o = askLevel p (os ++ [o]) := by
  cases os with
  | nil =>
    simp [askLevel, add_to_asks, ho]
  | cons o0 os0 =>
    show add_to_asks [⟨p, o0 :: os0, ((o0 :: os0).map Order.qty).sum⟩] o = _
    simp only [add_to_asks]
    rw [if_neg (by simp [ho]), if_pos (by simp [ho])]
    simp [askLevel, PriceLevel.add_order, ho]
    omega

theorem containsId_cons (k p2 : Nat) (s : Side) (mp : List (Nat × Nat × Side))
    (id : Nat) :
    containsId ((k, p2, s) :: mp) id = (decide (k = id) || containsId mp id) := rfl

theorem build_asks (p : Nat) :
    ∀ (adds : List (Nat × Nat)) (os : List Order)
      (mp : List (Nat × Nat × Side)) (free : Nat),
      (∀ a ∈ adds, containsId mp a.1 = false) →
      (adds.map Prod.fst).Nodup →
      (∀ a ∈ adds, 0 < a.2) →
      adds.length ≤ free →
      ∃ mp2 free2,
        (adds.map (fun a => Op.add a.1 p a.2 Side.Sell)).foldl applyOp
            ⟨[], askLevel p os, mp, free⟩ =
          ⟨[], askLevel p (os ++ adds.map (fun a => ⟨a.1, p, a.2, Side.Sell⟩)),
            mp2, free2⟩ := by
  intro adds
  induction adds with
  | nil =>
    intro os mp free _ _ _ _
    exact ⟨mp, free, by simp⟩
  | cons a rest ih =>
    intro os mp free hfresh hnodup hpos hlen
    have hlen' : rest.length + 1 ≤ free := by
      simpa using hlen
    have hstep :
        applyOp ⟨[], askLevel p os, mp, free⟩ (Op.add a.1 p a.2 Side.Sell) =
          ⟨[], askLevel p (os ++ [⟨a.1, p, a.2, Side.Sell⟩]),
            (a.1, p, Side.Sell) :: mp, free - 1⟩ := by
      show (add_order ⟨[], askLevel p os, mp, free⟩ a.1 p a.2 Side.Sell).2.2 = _
      simp only [add_order, matchPhase]
      rw [if_neg (by simp [hfresh a (List.mem_cons_self _ _)])]
      rw [show match_sell ([] : List PriceLevel) a.1 p a.2 = ⟨[], a.2, [], []⟩
        from rfl]
      rw [if_neg (show ¬ ((⟨[], a.2, [], []⟩ : LadderMatch).remaining = 0) by
        have := hpos a (List.mem_cons_self _ _)
        show ¬ (a.2 = 0)
        omega)]
      rw [if_neg (show ¬ ((⟨[], askLevel p os,
          ((⟨[], a.2, [], []⟩ : LadderMatch).freed.foldl eraseId mp),
          free + (⟨[], a.2, [], []⟩ : LadderMatch).freed.length⟩ :
            OrderBook).free_count = 0) by
        show ¬ (free + 0 = 0)
        omega)]
      show (⟨[], add_to_asks (askLevel p os) ⟨a.1, p, a.2, Side.Sell⟩,
        (a.1, p, Side.Sell) :: mp, free + 0 - 1⟩ : OrderBook) = _
      rw [add_to_asks_askLevel p os ⟨a.1, p, a.2, Side.Sell⟩ rfl]
      rfl
    rw [List.map_cons, List.foldl_cons, hstep]
    have hnodup' : a.1 ∉ rest.map Prod.fst ∧ (rest.map Prod.fst).Nodup :=
      List.nodup_cons.mp hnodup
    obtain ⟨mp2, free2, heq⟩ := ih (os ++ [⟨a.1, p, a.2, Side.Sell⟩])
      ((a.1, p, Side.Sell) :: mp) (free - 1)
      (by
        intro a' ha'
        rw [containsId_cons]
        have hne : ¬ (a.1 = a'.1) := by
          intro hcon
          exact hnodup'.1 (by rw [hcon]; exact List.mem_map_of_mem Prod.fst ha')
        simp [hne, hfresh a' (List.mem_cons_of_mem _ ha')])
      hnodup'.2 (fun a' ha' => hpos a' (List.mem_cons_of_mem _ ha'))
      (by omega)
    have hassoc : (os ++ [(⟨a.1, p, a.2, Side.Sell⟩ : Order)]) ++
        rest.map (fun a => (⟨a.1, p, a.2, Side.Sell⟩ : Order)) =
        os ++ (⟨a.1, p, a.2, Side.Sell⟩ : Order) ::
          rest.map (fun a => (⟨a.1, p, a.2, Side.Sell⟩ : Order)) := by
      simp
    rw [hassoc] at heq
    exact ⟨mp2, free2, heq⟩

/-- C2: on a reachable book, `add_order` reports each fill exactly once
with a positive quantity, delivers fills best-price-first across levels
(ascending exec prices for a buy taker, descending for a sell taker) and
FIFO within each level (the makers filled at a level's price form a prefix
of that level's queue in queue order); in particular a crossing order sent
against a sequence of same-price resting adds consumes the makers strictly
in insertion order. -/
theorem C2_fifo_price_priority (b : OrderBook) (hb : Reachable b)
    (id price qty : Nat) (side : Side) (execs : List Execution)
    (hex : (add_order b id price qty side).2.1 = execs) :
    (∀ e ∈ execs, 0 < e.qty) ∧
    (side = Side.Buy →
      List.Pairwise (fun a c => a ≤ c) (execs.map Execution.price)) ∧
    (side = Side.Sell →
      List.Pairwise (fun a c => c ≤ a) (execs.map Execution.price)) ∧
    (∀ l ∈ opposite_levels b side,
      ((execs.filter (fun e => e.price = l.price)).map Execution.maker_id) <+:
        l.orders.map Order.id) ∧
    (∀ (cap : Nat) (adds : List (Nat × Nat)) (p tid tp tq : Nat),
      (adds.map Prod.fst).Nodup → (∀ a ∈ adds, 0 < a.2) →
      adds.length ≤ cap → p ≤ tp → tq ≤ (adds.map Prod.snd).sum →
      ((add_order (runOps cap (adds.map fun a => Op.add a.1 p a.2 Side.Sell))
          tid tp tq Side.Buy).2.1.map Execution.maker_id) <+:
        adds.map Prod.fst) := by
  rcases reachable_inv b hb with ⟨hbs, has, hbw, haw, _⟩
  rw [add_order_execs] at hex
  refine ⟨?_, ?_, ?_, ?_, ?_⟩
  · intro e he
    by_cases hdup : containsId b.order_map id = true
    · rw [if_pos hdup] at hex
      subst hex
      simp at he
    · rw [if_neg hdup] at hex
      subst hex
      cases side with
      | Buy =>
        have he2 : e ∈ (match_buy b.asks id price qty).execs := he
        exact (ladder_execs (fun p lp => decide (p < lp)) Side.Sell b.asks id
          price qty haw e he2).1
      | Sell =>
        have he2 : e ∈ (match_sell b.bids id price qty).execs := he
        exact (ladder_execs (fun p lp => decide (lp < p)) Side.Buy b.bids id
          price qty hbw e he2).1
  · intro hside
    subst hside
    by_cases hdup : containsId b.order_map id = true
    · rw [if_pos hdup] at hex
      subst hex
      simp
    · rw [if_neg hdup] at hex
      subst hex
      have h1 : List.Pairwise (fun a c => a < c ∨ a = c)
          ((match_buy b.asks id price qty).execs.map Execution.price) :=
        ladder_execs_sorted (fun p lp => decide (p < lp)) Side.Sell (· < ·)
          b.asks id price qty has
      exact h1.imp (fun h => h.elim Nat.le_of_lt Nat.le_of_eq)
  · intro hside
    subst hside
    by_cases hdup : containsId b.order_map id = true
    · rw [if_pos hdup] at hex
      subst hex
      simp
    · rw [if_neg hdup] at hex
      subst hex
      have h1 : List.Pairwise (fun a c => c < a ∨ a = c)
          ((match_sell b.bids id price qty).execs.map Execution.price) :=
        ladder_execs_sorted (fun p lp => decide (lp < p)) Side.Buy
          (fun a c => c < a) b.bids id price qty hbs
      exact h1.imp (fun h => h.elim Nat.le_of_lt (fun e2 => Nat.le_of_eq e2.symm))
  · intro l hl
    by_cases hdup : containsId b.order_map id = true
    · rw [if_pos hdup] at hex
      subst hex
      exact List.nil_prefix
    · rw [if_neg hdup] at hex
      subst hex
      cases side with
      | Buy =>
        exact ladder_fifo (fun p lp => decide (p < lp)) Side.Sell (· < ·)
          (fun a c h => Nat.ne_of_lt h) b.asks id price qty has l hl
      | Sell =>
        exact ladder_fifo (fun p lp => decide (lp < p)) Side.Buy
          (fun a c => c < a) (fun a c h => (Nat.ne_of_lt h).symm)
          b.bids id price qty hbs l hl
  · intro cap adds p tid tp tq hnodup hpos hlen htp _
    obtain ⟨mp2, free2, heq⟩ := build_asks p adds [] [] cap
      (fun a _ => rfl) hnodup hpos hlen
    rw [List.nil_append] at heq
    have hrun : runOps cap (adds.map fun a => Op.add a.1 p a.2 Side.Sell) =
        ⟨[], askLevel p (adds.map fun a => ⟨a.1, p, a.2, Side.Sell⟩),
          mp2, free2⟩ := heq
    rw [hrun, add_order_execs]
    by_cases hdup : containsId mp2 tid = true
    · rw [if_pos hdup]
      exact List.nil_prefix
    · rw [if_neg hdup]
      have hids : (adds.map fun a => (⟨a.1, p, a.2, Side.Sell⟩ : Order)).map
          Order.id = adds.map Prod.fst := by
        simp [List.map_map]
      show ((match_buy (askLevel p (adds.map fun a => ⟨a.1, p, a.2, Side.Sell⟩))
        tid tp tq).execs.map Execution.maker_id) <+: adds.map Prod.fst
      cases adds with
      | nil => exact List.nil_prefix
      | cons a rest =>
        show ((match_ladder (fun p lp => decide (p < lp)) Side.Sell
          [⟨p, (a :: rest).map fun a => ⟨a.1, p, a.2, Side.Sell⟩,
            (((a :: rest).map fun a => (⟨a.1, p, a.2, Side.Sell⟩ : Order)).map
              Order.qty).sum⟩] tid tp tq).execs.map Execution.maker_id) <+:
          (a :: rest).map Prod.fst
        simp only [match_ladder]
        by_cases h0 : tq = 0
        · rw [if_pos h0]
          exact List.nil_prefix
        · rw [if_neg h0]
          rw [if_neg (show ¬ ((decide (tp < p)) = true) by
            simp only [decide_eq_true_eq]
            omega)]
          by_cases hem : (matchLoop ((a :: rest).map fun a =>
              (⟨a.1, p, a.2, Side.Sell⟩ : Order)) p
              ((((a :: rest).map fun a => (⟨a.1, p, a.2, Side.Sell⟩ : Order)).map
                Order.qty).sum) tid tq Side.Sell).orders.isEmpty = true
          · rw [if_pos hem, ← hids, List.append_nil]
            exact matchLoop_fifo p tid Side.Sell _ _ tq
          · rw [if_neg hem]
            rw [← hids]
            exact matchLoop_fifo p tid Side.Sell _ _ tq


theorem C2_witness :
    (add_order (runOps 7 [Op.add 1 100 10 Side.Sell, Op.add 2 100 5 Side.Sell,
        Op.add 3 110 5 Side.Sell]) 4 110 12 Side.Buy).2.1 =
      [⟨1, 4, 100, 10, Side.Sell⟩, ⟨2, 4, 100, 2, Side.Sell⟩] ∧
    ((∀ e ∈ [(⟨1, 4, 100, 10, Side.Sell⟩ : Execution),
        ⟨2, 4, 100, 2, Side.Sell⟩], 0 < e.qty) ∧
      (Side.Buy = Side.Buy →
        List.Pairwise (fun a c => a ≤ c)
          ([(⟨1, 4, 100, 10, Side.Sell⟩ : Execution),
            ⟨2, 4, 100, 2, Side.Sell⟩].map Execution.price)) ∧
      (Side.Buy = Side.Sell →
        List.Pairwise (fun a c => c ≤ a)
          ([(⟨1, 4, 100, 10, Side.Sell⟩ : Execution),
            ⟨2, 4, 100, 2, Side.Sell⟩].map Execution.price)) ∧
      (∀ l ∈ opposite_levels (runOps 7 [Op.add 1 100 10 Side.Sell,
          Op.add 2 100 5 Side.Sell, Op.add 3 110 5 Side.Sell]) Side.Buy,
        (([(⟨1, 4, 100, 10, Side.Sell⟩ : Execution),
            ⟨2, 4, 100, 2, Side.Sell⟩].filter
              (fun e => e.price = l.price)).map Execution.maker_id) <+:
          l.orders.map Order.id) ∧
      (∀ (cap : Nat) (adds : List (Nat × Nat)) (p tid tp tq : Nat),
        (adds.map Prod.fst).Nodup → (∀ a ∈ adds, 0 < a.2) →
        adds.length ≤ cap → p ≤ tp → tq ≤ (adds.map Prod.snd).sum →
        ((add_order (runOps cap (adds.map fun a => Op.add a.1 p a.2 Side.Sell))
            tid tp tq Side.Buy).2.1.map Execution.maker_id) <+:
          adds.map Prod.fst)) :=
  ⟨by decide,
    C2_fifo_price_priority
      (runOps 7 [Op.add 1 100 10 Side.Sell, Op.add 2 100 5 Side.Sell,
        Op.add 3 110 5 Side.Sell])
      ⟨7, [Op.add 1 100 10 Side.Sell, Op.add 2 100 5 Side.Sell,
        Op.add 3 110 5 Side.Sell], rfl⟩
      4 110 12 Side.Buy
      [⟨1, 4, 100, 10, Side.Sell⟩, ⟨2, 4, 100, 2, Side.Sell⟩] (by decide)⟩


/-- Embeds the loop structure of `StockSymbol::equals` (messages.hpp).
`data` is the 8-byte symbol slot, `str` the characters of the query before
its NUL terminator. The first C++ loop compares bytes while the slot index
is below 8 and the query has characters left; the second loop requires
every remaining slot byte to be a space. When the slot is exhausted first,
the final return statement (testing that the query ended or that the index
reached 8) is reached with the index equal to 8, so it yields `true` no
matter what the query still holds. -/
def symbolEqualsLoop : List Char → List Char → Bool
  | [], _ => true
  | d :: ds, [] => (d :: ds).all (fun c => c = ' ')
  | d :: ds, s :: ss => if d = s then symbolEqualsLoop ds ss else false

/-- Embeds `StockSymbol::equals` on the slot bytes and the query. -/
def StockSymbol.equals (data str : List Char) : Bool := symbolEqualsLoop data str

/-- The relation the specification states for symbol equality: the query
matches the leading slot bytes (so a query longer than the slot never
matches) and every remaining slot byte is the space character. -/
def specSymbolEq (data str : List Char) : Prop :=
  data.take str.length = str ∧ ∀ c ∈ data.drop str.length, c = ' '

/-- C8: the code diverges from the specified equivalence on a query longer
than eight characters whose first eight characters fill the slot: the
routine returns `true` although the spec relation fails, contradicting the
routine's own comment that extra characters beyond 8 are rejected. -/
theorem C8_code_divergence :
    StockSymbol.equals
        ['A', 'B', 'C', 'D', 'E', 'F', 'G', 'H']
        ['A', 'B', 'C', 'D', 'E', 'F', 'G', 'H', 'X'] = true ∧
    ¬ specSymbolEq
        ['A', 'B', 'C', 'D', 'E', 'F', 'G', 'H']
        ['A', 'B', 'C', 'D', 'E', 'F', 'G', 'H', 'X'] := by
  constructor
  · decide
  · unfold specSymbolEq
    decide


/-- Embeds `bswap16` (compat.hpp): on the little-endian hosts the code
targets it reverses the two bytes of a 16-bit value (the semantics of
`__builtin_bswap16` and of the portable shift-or fallback). -/
def bswap16 (v : Nat) : Nat := v % 256 * 2 ^ 8 + v / 2 ^ 8 % 256

/-- Embeds `bswap32` (compat.hpp): reverses the four bytes. -/
def bswap32 (v : Nat) : Nat :=
  v % 256 * 2 ^ 24 + v / 2 ^ 8 % 256 * 2 ^ 16 + v / 2 ^ 16 % 256 * 2 ^ 8 +
    v / 2 ^ 24 % 256

/-- Embeds `bswap64` (compat.hpp): reverses the eight bytes. -/
def bswap64 (v : Nat) : Nat :=
  v % 256 * 2 ^ 56 + v / 2 ^ 8 % 256 * 2 ^ 48 + v / 2 ^ 16 % 256 * 2 ^ 40 +
    v / 2 ^ 24 % 256 * 2 ^ 32 + v / 2 ^ 32 % 256 * 2 ^ 24 +
    v / 2 ^ 40 % 256 * 2 ^ 16 + v / 2 ^ 48 % 256 * 2 ^ 8 + v / 2 ^ 56 % 256

/-- Embeds `ntoh<uint16_t>` on a little-endian host (`kIsBigEndian` is
false on the x86 targets the code documents): a byte swap. -/
def ntoh16 (v : Nat) : Nat := bswap16 v

/-- Embeds `ntoh<uint32_t>` on a little-endian host. -/
def ntoh32 (v : Nat) : Nat := bswap32 v

/-- Embeds `ntoh<uint64_t>` on a little-endian host. -/
def ntoh64 (v : Nat) : Nat := bswap64 v

/-- Reading one byte of the caller's buffer. The C++ overlay performs no
bounds check; reads past the modelled buffer yield the unspecified byte 0,
which no theorem below relies on. -/
def byteAt (buf : List Nat) (i : Nat) : Nat := buf.getD i 0

/-- A `BigEndian<uint16_t>` field access at a byte offset: the unaligned
little-endian load of the two stored bytes followed by the lazy byte swap
of `BigEndian::operator T` (messages.hpp). -/
def decU16 (buf : List Nat) (off : Nat) : Nat :=
  ntoh16 (byteAt buf off + 2 ^ 8 * byteAt buf (off + 1))

/-- A `BigEndian<uint32_t>` field access at a byte offset. -/
def decU32 (buf : List Nat) (off : Nat) : Nat :=
  ntoh32 (byteAt buf off + 2 ^ 8 * byteAt buf (off + 1) +
    2 ^ 16 * byteAt buf (off + 2) + 2 ^ 24 * byteAt buf (off + 3))

/-- A `BigEndian<uint64_t>` field access at a byte offset. -/
def decU64 (buf : List Nat) (off : Nat) : Nat :=
  ntoh64 (byteAt buf off + 2 ^ 8 * byteAt buf (off + 1) +
    2 ^ 16 * byteAt buf (off + 2) + 2 ^ 24 * byteAt buf (off + 3) +
    2 ^ 32 * byteAt buf (off + 4) + 2 ^ 40 * byteAt buf (off + 5) +
    2 ^ 48 * byteAt buf (off + 6) + 2 ^ 56 * byteAt buf (off + 7))

/-- Embeds `Timestamp48::nanoseconds` (messages.hpp): the six bytes are
assembled most-significant first with the source's shift amounts. -/
def decTs48 (buf : List Nat) (off : Nat) : Nat :=
  byteAt buf off * 2 ^ 40 + byteAt buf (off + 1) * 2 ^ 32 +
    byteAt buf (off + 2) * 2 ^ 24 + byteAt buf (off + 3) * 2 ^ 16 +
    byteAt buf (off + 4) * 2 ^ 8 + byteAt buf (off + 5)

/-- The mathematical big-endian interpretation of a byte list. -/
def beVal (bs : List Nat) : Nat := bs.foldl (fun acc b => acc * 256 + b) 0

/-- The decoded view of an `AddOrder` message (type 'A', 36 bytes):
the integer fields read through the `BigEndian` accessors at the
documented offsets 0/1/3/5/11/19/20/24/32. -/
structure AddOrderView where
  msg_type : Nat
  stock_locate : Nat
  tracking_number : Nat
  timestamp : Nat
  order_ref : Nat
  side : Nat
  shares : Nat
  stock : List Nat
  price : Nat
deriving DecidableEq, Repr

/-- Embeds the `AddOrder` overlay (messages.hpp): each field is read at
its documented offset. -/
def decodeAddOrder (buf : List Nat) : AddOrderView :=
  ⟨byteAt buf 0, decU16 buf 1, decU16 buf 3, decTs48 buf 5, decU64 buf 11,
    byteAt buf 19, decU32 buf 20,
    [byteAt buf 24, byteAt buf 25, byteAt buf 26, byteAt buf 27,
      byteAt buf 28, byteAt buf 29, byteAt buf 30, byteAt buf 31],
    decU32 buf 32⟩

/-- The decoded view of an `OrderExecuted` message (type 'E', 31 bytes):
fields at the documented offsets 0/1/3/5/11/19/23. -/
structure OrderExecutedView where
  msg_type : Nat
  stock_locate : Nat
  tracking_number : Nat
  timestamp : Nat
  order_ref : Nat
  executed_shares : Nat
  match_number : Nat
deriving DecidableEq, Repr

/-- Embeds the `OrderExecuted` overlay (messages.hpp). -/
def decodeOrderExecuted (buf : List Nat) : OrderExecutedView :=
  ⟨byteAt buf 0, decU16 buf 1, decU16 buf 3, decTs48 buf 5, decU64 buf 11,
    decU32 buf 19, decU64 buf 23⟩

/-- A 36-byte `AddOrder` buffer laid out big-endian at the documented
offsets: type at 0, stock locate at 1, tracking number at 3, timestamp at
5, order reference at 11, side byte at 19, shares at 20, the 8 symbol
bytes at 24, price at 32. -/
def encodeAddOrder (mt sl tn ts oref sd sh s0 s1 s2 s3 s4 s5 s6 s7 pr : Nat) :
    List Nat :=
  [mt,
    sl / 2 ^ 8 % 256, sl % 256,
    tn / 2 ^ 8 % 256, tn % 256,
    ts / 2 ^ 40 % 256, ts / 2 ^ 32 % 256, ts / 2 ^ 24 % 256,
    ts / 2 ^ 16 % 256, ts / 2 ^ 8 % 256, ts % 256,
    oref / 2 ^ 56 % 256, oref / 2 ^ 48 % 256, oref / 2 ^ 40 % 256,
    oref / 2 ^ 32 % 256, oref / 2 ^ 24 % 256, oref / 2 ^ 16 % 256,
    oref / 2 ^ 8 % 256, oref % 256,
    sd,
    sh / 2 ^ 24 % 256, sh / 2 ^ 16 % 256, sh / 2 ^ 8 % 256, sh % 256,
    s0, s1, s2, s3, s4, s5, s6, s7,
    pr / 2 ^ 24 % 256, pr / 2 ^ 16 % 256, pr / 2 ^ 8 % 256, pr % 256]

/-- A 31-byte `OrderExecuted` buffer laid out big-endian at the documented
offsets. -/
def encodeOrderExecuted (mt sl tn ts oref es mn : Nat) : List Nat :=
  [mt,
    sl / 2 ^ 8 % 256, sl % 256,
    tn / 2 ^ 8 % 256, tn % 256,
    ts / 2 ^ 40 % 256, ts / 2 ^ 32 % 256, ts / 2 ^ 24 % 256,
    ts / 2 ^ 16 % 256, ts / 2 ^ 8 % 256, ts % 256,
    oref / 2 ^ 56 % 256, oref / 2 ^ 48 % 256, oref / 2 ^ 40 % 256,
    oref / 2 ^ 32 % 256, oref / 2 ^ 24 % 256, oref / 2 ^ 16 % 256,
    oref / 2 ^ 8 % 256, oref % 256,
    es / 2 ^ 24 % 256, es / 2 ^ 16 % 256, es / 2 ^ 8 % 256, es % 256,
    mn / 2 ^ 56 % 256, mn / 2 ^ 48 % 256, mn / 2 ^ 40 % 256,
    mn / 2 ^ 32 % 256, mn / 2 ^ 24 % 256, mn / 2 ^ 16 % 256,
    mn / 2 ^ 8 % 256, mn % 256]

theorem bswap16_digits (b0 b1 : Nat) (h0 : b0 < 256) (h1 : b1 < 256) :
    bswap16 (b0 + 2 ^ 8 * b1) = b0 * 2 ^ 8 + b1 := by
  unfold bswap16
  have e0 : (b0 + 2 ^ 8 * b1) % 256 = b0 := by omega
  have e1 : (b0 + 2 ^ 8 * b1) / 2 ^ 8 % 256 = b1 := by omega
  rw [e0, e1]

theorem bswap32_digits (b0 b1 b2 b3 : Nat) (h0 : b0 < 256) (h1 : b1 < 256) (h2 : b2 < 256) (h3 : b3 < 256) :
    bswap32 (b0 + 2 ^ 8 * b1 + 2 ^ 16 * b2 + 2 ^ 24 * b3) = b0 * 2 ^ 24 + b1 * 2 ^ 16 + b2 * 2 ^ 8 + b3 := by
  unfold bswap32
  have e0 : (b0 + 2 ^ 8 * b1 + 2 ^ 16 * b2 + 2 ^ 24 * b3) % 256 = b0 := by omega
  have e1 : (b0 + 2 ^ 8 * b1 + 2 ^ 16 * b2 + 2 ^ 24 * b3) / 2 ^ 8 % 256 = b1 := by omega
  have e2 : (b0 + 2 ^ 8 * b1 + 2 ^ 16 * b2 + 2 ^ 24 * b3) / 2 ^ 16 % 256 = b2 := by omega
  have e3 : (b0 + 2 ^ 8 * b1 + 2 ^ 16 * b2 + 2 ^ 24 * b3) / 2 ^ 24 % 256 = b3 := by omega
  rw [e0, e1, e2, e3]

theorem bswap64_digits (b0 b1 b2 b3 b4 b5 b6 b7 : Nat) (h0 : b0 < 256) (h1 : b1 < 256) (h2 : b2 < 256) (h3 : b3 < 256) (h4 : b4 < 256) (h5 : b5 < 256) (h6 : b6 < 256) (h7 : b7 < 256) :
    bswap64 (b0 + 2 ^ 8 * b1 + 2 ^ 16 * b2 + 2 ^ 24 * b3 + 2 ^ 32 * b4 + 2 ^ 40 * b5 + 2 ^ 48 * b6 + 2 ^ 56 * b7) = b0 * 2 ^ 56 + b1 * 2 ^ 48 + b2 * 2 ^ 40 + b3 * 2 ^ 32 + b4 * 2 ^ 24 + b5 * 2 ^ 16 + b6 * 2 ^ 8 + b7 := by
  unfold bswap64
  have e0 : (b0 + 2 ^ 8 * b1 + 2 ^ 16 * b2 + 2 ^ 24 * b3 + 2 ^ 32 * b4 + 2 ^ 40 * b5 + 2 ^ 48 * b6 + 2 ^ 56 * b7) % 256 = b0 := by omega
  have e1 : (b0 + 2 ^ 8 * b1 + 2 ^ 16 * b2 + 2 ^ 24 * b3 + 2 ^ 32 * b4 + 2 ^ 40 * b5 + 2 ^ 48 * b6 + 2 ^ 56 * b7) / 2 ^ 8 % 256 = b1 := by omega
  have e2 : (b0 + 2 ^ 8 * b1 + 2 ^ 16 * b2 + 2 ^ 24 * b3 + 2 ^ 32 * b4 + 2 ^ 40 * b5 + 2 ^ 48 * b6 + 2 ^ 56 * b7) / 2 ^ 16 % 256 = b2 := by omega
  have e3 : (b0 + 2 ^ 8 * b1 + 2 ^ 16 * b2 + 2 ^ 24 * b3 + 2 ^ 32 * b4 + 2 ^ 40 * b5 + 2 ^ 48 * b6 + 2 ^ 56 * b7) / 2 ^ 24 % 256 = b3 := by omega
  have e4 : (b0 + 2 ^ 8 * b1 + 2 ^ 16 * b2 + 2 ^ 24 * b3 + 2 ^ 32 * b4 + 2 ^ 40 * b5 + 2 ^ 48 * b6 + 2 ^ 56 * b7) / 2 ^ 32 % 256 = b4 := by omega
  have e5 : (b0 + 2 ^ 8 * b1 + 2 ^ 16 * b2 + 2 ^ 24 * b3 + 2 ^ 32 * b4 + 2 ^ 40 * b5 + 2 ^ 48 * b6 + 2 ^ 56 * b7) / 2 ^ 40 % 256 = b5 := by omega
  have e6 : (b0 + 2 ^ 8 * b1 + 2 ^ 16 * b2 + 2 ^ 24 * b3 + 2 ^ 32 * b4 + 2 ^ 40 * b5 + 2 ^ 48 * b6 + 2 ^ 56 * b7) / 2 ^ 48 % 256 = b6 := by omega
  have e7 : (b0 + 2 ^ 8 * b1 + 2 ^ 16 * b2 + 2 ^ 24 * b3 + 2 ^ 32 * b4 + 2 ^ 40 * b5 + 2 ^ 48 * b6 + 2 ^ 56 * b7) / 2 ^ 56 % 256 = b7 := by omega
  rw [e0, e1, e2, e3, e4, e5, e6, e7]

theorem ntoh16_enc (v : Nat) (hv : v < 2 ^ 16) :
    ntoh16 (v / 2 ^ 8 % 256 + 2 ^ 8 * (v % 256)) = v := by
  unfold ntoh16
  rw [bswap16_digits (v / 2 ^ 8 % 256) (v % 256) (by omega) (by omega)]
  omega

theorem ntoh32_enc (v : Nat) (hv : v < 2 ^ 32) :
    ntoh32 (v / 2 ^ 24 % 256 + 2 ^ 8 * (v / 2 ^ 16 % 256) +
      2 ^ 16 * (v / 2 ^ 8 % 256) + 2 ^ 24 * (v % 256)) = v := by
  unfold ntoh32
  rw [bswap32_digits (v / 2 ^ 24 % 256) (v / 2 ^ 16 % 256) (v / 2 ^ 8 % 256)
    (v % 256) (by omega) (by omega) (by omega) (by omega)]
  omega

theorem ntoh64_enc (v : Nat) (hv : v < 2 ^ 64) :
    ntoh64 (v / 2 ^ 56 % 256 + 2 ^ 8 * (v / 2 ^ 48 % 256) +
      2 ^ 16 * (v / 2 ^ 40 % 256) + 2 ^ 24 * (v / 2 ^ 32 % 256) +
      2 ^ 32 * (v / 2 ^ 24 % 256) + 2 ^ 40 * (v / 2 ^ 16 % 256) +
      2 ^ 48 * (v / 2 ^ 8 % 256) + 2 ^ 56 * (v % 256)) = v := by
  unfold ntoh64
  rw [bswap64_digits (v / 2 ^ 56 % 256) (v / 2 ^ 48 % 256) (v / 2 ^ 40 % 256)
    (v / 2 ^ 32 % 256) (v / 2 ^ 24 % 256) (v / 2 ^ 16 % 256) (v / 2 ^ 8 % 256)
    (v % 256) (by omega) (by omega) (by omega) (by omega) (by omega) (by omega)
    (by omega) (by omega)]
  omega

theorem ts48_enc (v : Nat) (hv : v < 2 ^ 48) :
    v / 2 ^ 40 % 256 * 2 ^ 40 + v / 2 ^ 32 % 256 * 2 ^ 32 +
      v / 2 ^ 24 % 256 * 2 ^ 24 + v / 2 ^ 16 % 256 * 2 ^ 16 +
      v / 2 ^ 8 % 256 * 2 ^ 8 + v % 256 = v := by
  omega


/-- C9: the decoding primitives are total functions, each decoded 16-, 32-,
48- and 64-bit field equals the mathematical big-endian interpretation of
the underlying bytes, and a buffer laid out big-endian at the documented
offsets decodes back to exactly the encoded field values, for both
`AddOrder` and `OrderExecuted`. -/
theorem C9_decode_roundtrip :
    (∀ a b : Nat, a < 256 → b < 256 → decU16 [a, b] 0 = beVal [a, b]) ∧
    (∀ a b c d : Nat, a < 256 → b < 256 → c < 256 → d < 256 →
      decU32 [a, b, c, d] 0 = beVal [a, b, c, d]) ∧
    (∀ a b c d e f g h : Nat, a < 256 → b < 256 → c < 256 → d < 256 →
      e < 256 → f < 256 → g < 256 → h < 256 →
      decU64 [a, b, c, d, e, f, g, h] 0 = beVal [a, b, c, d, e, f, g, h]) ∧
    (∀ a b c d e f : Nat, a < 256 → b < 256 → c < 256 → d < 256 →
      e < 256 → f < 256 →
      decTs48 [a, b, c, d, e, f] 0 = beVal [a, b, c, d, e, f]) ∧
    (∀ mt sl tn ts oref sd sh s0 s1 s2 s3 s4 s5 s6 s7 pr : Nat,
      mt < 256 → sl < 2 ^ 16 → tn < 2 ^ 16 → ts < 2 ^ 48 → oref < 2 ^ 64 →
      sd < 256 → sh < 2 ^ 32 → pr < 2 ^ 32 →
      decodeAddOrder
          (encodeAddOrder mt sl tn ts oref sd sh s0 s1 s2 s3 s4 s5 s6 s7 pr) =
        ⟨mt, sl, tn, ts, oref, sd, sh, [s0, s1, s2, s3, s4, s5, s6, s7], pr⟩) ∧
    (∀ mt sl tn ts oref es mn : Nat,
      mt < 256 → sl < 2 ^ 16 → tn < 2 ^ 16 → ts < 2 ^ 48 → oref < 2 ^ 64 →
      es < 2 ^ 32 → mn < 2 ^ 64 →
      decodeOrderExecuted (encodeOrderExecuted mt sl tn ts oref es mn) =
        ⟨mt, sl, tn, ts, oref, es, mn⟩) := by
  refine ⟨?_, ?_, ?_, ?_, ?_, ?_⟩
  · intro a b ha hb
    show ntoh16 (a + 2 ^ 8 * b) = beVal [a, b]
    unfold ntoh16 beVal
    rw [bswap16_digits a b ha hb]
    simp only [List.foldl_cons, List.foldl_nil]
    omega
  · intro a b c d ha hb hc hd
    show ntoh32 (a + 2 ^ 8 * b + 2 ^ 16 * c + 2 ^ 24 * d) = beVal [a, b, c, d]
    unfold ntoh32 beVal
    rw [bswap32_digits a b c d ha hb hc hd]
    simp only [List.foldl_cons, List.foldl_nil]
    omega
  · intro a b c d e f g h ha hb hc hd he hf hg hh
    show ntoh64 (a + 2 ^ 8 * b + 2 ^ 16 * c + 2 ^ 24 * d + 2 ^ 32 * e +
      2 ^ 40 * f + 2 ^ 48 * g + 2 ^ 56 * h) = beVal [a, b, c, d, e, f, g, h]
    unfold ntoh64 beVal
    rw [bswap64_digits a b c d e f g h ha hb hc hd he hf hg hh]
    simp only [List.foldl_cons, List.foldl_nil]
    omega
  · intro a b c d e f ha hb hc hd he hf
    show a * 2 ^ 40 + b * 2 ^ 32 + c * 2 ^ 24 + d * 2 ^ 16 + e * 2 ^ 8 + f =
      beVal [a, b, c, d, e, f]
    unfold beVal
    simp only [List.foldl_cons, List.foldl_nil]
    omega
  · intro mt sl tn ts oref sd sh s0 s1 s2 s3 s4 s5 s6 s7 pr
      hmt hsl htn hts horef hsd hsh hpr
    unfold decodeAddOrder
    simp only [AddOrderView.mk.injEq]
    refine ⟨rfl, ?_, ?_, ?_, ?_, rfl, ?_, rfl, ?_⟩
    · show ntoh16 (sl / 2 ^ 8 % 256 + 2 ^ 8 * (sl % 256)) = sl
      exact ntoh16_enc sl hsl
    · show ntoh16 (tn / 2 ^ 8 % 256 + 2 ^ 8 * (tn % 256)) = tn
      exact ntoh16_enc tn htn
    · show ts / 2 ^ 40 % 256 * 2 ^ 40 + ts / 2 ^ 32 % 256 * 2 ^ 32 +
        ts / 2 ^ 24 % 256 * 2 ^ 24 + ts / 2 ^ 16 % 256 * 2 ^ 16 +
        ts / 2 ^ 8 % 256 * 2 ^ 8 + ts % 256 = ts
      exact ts48_enc ts hts
    · show ntoh64 (oref / 2 ^ 56 % 256 + 2 ^ 8 * (oref / 2 ^ 48 % 256) +
        2 ^ 16 * (oref / 2 ^ 40 % 256) + 2 ^ 24 * (oref / 2 ^ 32 % 256) +
        2 ^ 32 * (oref / 2 ^ 24 % 256) + 2 ^ 40 * (oref / 2 ^ 16 % 256) +
        2 ^ 48 * (oref / 2 ^ 8 % 256) + 2 ^ 56 * (oref % 256)) = oref
      exact ntoh64_enc oref horef
    · show ntoh32 (sh / 2 ^ 24 % 256 + 2 ^ 8 * (sh / 2 ^ 16 % 256) +
        2 ^ 16 * (sh / 2 ^ 8 % 256) + 2 ^ 24 * (sh % 256)) = sh
      exact ntoh32_enc sh hsh
    · show ntoh32 (pr / 2 ^ 24 % 256 + 2 ^ 8 * (pr / 2 ^ 16 % 256) +
        2 ^ 16 * (pr / 2 ^ 8 % 256) + 2 ^ 24 * (pr % 256)) = pr
      exact ntoh32_enc pr hpr
  · intro mt sl tn ts oref es mn hmt hsl htn hts horef hes hmn
    unfold decodeOrderExecuted
    simp only [OrderExecutedView.mk.injEq]
    refine ⟨rfl, ?_, ?_, ?_, ?_, ?_, ?_⟩
    · show ntoh16 (sl / 2 ^ 8 % 256 + 2 ^ 8 * (sl % 256)) = sl
      exact ntoh16_enc sl hsl
    · show ntoh16 (tn / 2 ^ 8 % 256 + 2 ^ 8 * (tn % 256)) = tn
      exact ntoh16_enc tn htn
    · show ts / 2 ^ 40 % 256 * 2 ^ 40 + ts / 2 ^ 32 % 256 * 2 ^ 32 +
        ts / 2 ^ 24 % 256 * 2 ^ 24 + ts / 2 ^ 16 % 256 * 2 ^ 16 +
        ts / 2 ^ 8 % 256 * 2 ^ 8 + ts % 256 = ts
      exact ts48_enc ts hts
    · show ntoh64 (oref / 2 ^ 56 % 256 + 2 ^ 8 * (oref / 2 ^ 48 % 256) +
        2 ^ 16 * (oref / 2 ^ 40 % 256) + 2 ^ 24 * (oref / 2 ^ 32 % 256) +
        2 ^ 32 * (oref / 2 ^ 24 % 256) + 2 ^ 40 * (oref / 2 ^ 16 % 256) +
        2 ^ 48 * (oref / 2 ^ 8 % 256) + 2 ^ 56 * (oref % 256)) = oref
      exact ntoh64_enc oref horef
    · show ntoh32 (es / 2 ^ 24 % 256 + 2 ^ 8 * (es / 2 ^ 16 % 256) +
        2 ^ 16 * (es / 2 ^ 8 % 256) + 2 ^ 24 * (es % 256)) = es
      exact ntoh32_enc es hes
    · show ntoh64 (mn / 2 ^ 56 % 256 + 2 ^ 8 * (mn / 2 ^ 48 % 256) +
        2 ^ 16 * (mn / 2 ^ 40 % 256) + 2 ^ 24 * (mn / 2 ^ 32 % 256) +
        2 ^ 32 * (mn / 2 ^ 24 % 256) + 2 ^ 40 * (mn / 2 ^ 16 % 256) +
        2 ^ 48 * (mn / 2 ^ 8 % 256) + 2 ^ 56 * (mn % 256)) = mn
      exact ntoh64_enc mn hmn

theorem C9_witness :
    decU16 [1, 2] 0 = beVal [1, 2] ∧
    decU32 [1, 2, 3, 4] 0 = beVal [1, 2, 3, 4] ∧
    decU64 [1, 2, 3, 4, 5, 6, 7, 8] 0 = beVal [1, 2, 3, 4, 5, 6, 7, 8] ∧
    decTs48 [1, 2, 3, 4, 5, 6] 0 = beVal [1, 2, 3, 4, 5, 6] ∧
    decodeAddOrder (encodeAddOrder 65 1 2 1000000000 1234567890 66 500
        65 65 80 76 32 32 32 32 1000000) =
      ⟨65, 1, 2, 1000000000, 1234567890, 66, 500,
        [65, 65, 80, 76, 32, 32, 32, 32], 1000000⟩ ∧
    decodeOrderExecuted (encodeOrderExecuted 69 1 2 1000000000 1234567890
        500 42) = ⟨69, 1, 2, 1000000000, 1234567890, 500, 42⟩ :=
  ⟨C9_decode_roundtrip.1 1 2 (by decide) (by decide),
    C9_decode_roundtrip.2.1 1 2 3 4 (by decide) (by decide) (by decide)
      (by decide),
    C9_decode_roundtrip.2.2.1 1 2 3 4 5 6 7 8 (by decide) (by decide)
      (by decide) (by decide) (by decide) (by decide) (by decide) (by decide),
    C9_decode_roundtrip.2.2.2.1 1 2 3 4 5 6 (by decide) (by decide)
      (by decide) (by decide) (by decide) (by decide),
    C9_decode_roundtrip.2.2.2.2.1 65 1 2 1000000000 1234567890 66 500
      65 65 80 76 32 32 32 32 1000000 (by decide) (by decide) (by decide)
      (by decide) (by decide) (by decide) (by decide) (by decide),
    C9_decode_roundtrip.2.2.2.2.2 69 1 2 1000000000 1234567890 500 42
      (by decide) (by decide) (by decide) (by decide) (by decide) (by decide)
      (by decide)⟩


/-- The Option-valued reading of `best_bid_volume` stated by the spec
(an absent value when the bid side is empty); kept for the refinement
comparison against the source's `uint64_t`-returning query. -/
def best_bid_volume_spec (b : OrderBook) : Option Nat :=
  match b.bids with
  | [] => none
  | l :: _ => some l.total_volume

/-- C7 counterexample: on a reachable book with an empty bid side the
source's `best_bid_volume` returns the present integer `0` (its return
type is a plain `uint64_t`), not the absent value the claim requires; the
Option-valued reading from the spec disagrees with the always-present
result of the code. -/
theorem C7_counterexample :
    (mkBook 3).bids = [] ∧
    best_bid_volume (mkBook 3) = 0 ∧
    best_bid_volume_spec (mkBook 3) = none ∧
    some (best_bid_volume (mkBook 3)) ≠ best_bid_volume_spec (mkBook 3) := by
  refine ⟨rfl, rfl, rfl, ?_⟩
  decide

/-- C7 amended: `best_bid`, `best_ask` return an absent value when their
side is empty and `spread` returns an absent value when either side is
empty, but `best_bid_volume` and `best_ask_volume` return the plain
integer `0` (a present sentinel) on an empty side. -/
theorem C7_queries_absent (b : OrderBook) :
    (b.bids = [] → best_bid b = none ∧ best_bid_volume b = 0) ∧
    (b.asks = [] → best_ask b = none ∧ best_ask_volume b = 0) ∧
    (b.bids = [] ∨ b.asks = [] → spread b = none) := by
  refine ⟨?_, ?_, ?_⟩
  · intro h
    constructor
    · rw [best_bid, h]
    · rw [best_bid_volume, h]
  · intro h
    constructor
    · rw [best_ask, h]
    · rw [best_ask_volume, h]
  · intro h
    rcases h with h | h
    · have hb : best_bid b = none := by rw [best_bid, h]
      cases ha : best_ask b <;> simp [spread, hb, ha]
    · have ha : best_ask b = none := by rw [best_ask, h]
      cases hb : best_bid b <;> simp [spread, hb, ha]

theorem C7_witness :
    best_bid (mkBook 2) = none ∧ best_bid_volume (mkBook 2) = 0 ∧
    best_ask (mkBook 2) = none ∧ best_ask_volume (mkBook 2) = 0 ∧
    spread (mkBook 2) = none :=
  ⟨((C7_queries_absent (mkBook 2)).1 rfl).1,
    ((C7_queries_absent (mkBook 2)).1 rfl).2,
    ((C7_queries_absent (mkBook 2)).2.1 rfl).1,
    ((C7_queries_absent (mkBook 2)).2.1 rfl).2,
    (C7_queries_absent (mkBook 2)).2.2 (Or.inl rfl)⟩

end Chronos
